import Mathlib

/-!
# Verification of the TOON codec (n8n-nodes-toon)

Shallow embedding of the TOON encoder/decoder pair
(`nodes/Toon/ToonEncoder.ts`, `nodes/Toon/ToonDecoder.ts`,
`nodes/Toon/ToonUtils.ts`) in Lean 4, together with proofs and
refutations of the specification's claims about it.

Modelling conventions:
* JavaScript strings are modelled as `Str := List Char` (sequences of
  Unicode scalar values; UTF-16 surrogate pairs are not split).
* The JSON number type (IEEE-754 double in the source) is modelled as
  the exact rationals `ℚ`; parsing a numeric lexeme yields its exact
  rational value and rendering is exact decimal expansion.  IEEE
  rounding is not modelled; no claim below depends on it.
* Code that throws is modelled in `Except DErr`.
* The decoder's mutually recursive parsing functions are written with
  an explicit fuel parameter so that they are structurally recursive
  and evaluate inside the kernel; `decode` supplies a fuel bound that
  dominates the source's call depth (each recursive call either moves
  the line cursor forward or switches to a phase that does, so the
  call depth is below `4 * number-of-lines + 8`).
-/

set_option maxHeartbeats 1000000
set_option maxRecDepth 4096

/-- JavaScript strings, modelled as lists of Unicode scalar values. -/
abbrev Str := List Char

/-- The left curly bracket character. -/
def obrace : Char := '\x7b'

/-- The right curly bracket character. -/
def cbrace : Char := '\x7d'

/-- The character class of JavaScript's `\s` regular-expression escape,
which is also the set of characters removed by `String.prototype.trim`:
ASCII whitespace, NBSP, the Unicode space separators, the line
separators, and the BOM. -/
def jsWhitespaceChar (c : Char) : Bool :=
  c = ' ' || c = '\t' || c = '\n' || c = '\r' ||
  c.toNat = 11 || c.toNat = 12 ||
  c.toNat = 0xA0 || c.toNat = 0x1680 ||
  (0x2000 ≤ c.toNat && c.toNat ≤ 0x200A) ||
  c.toNat = 0x2028 || c.toNat = 0x2029 ||
  c.toNat = 0x202F || c.toNat = 0x205F ||
  c.toNat = 0x3000 || c.toNat = 0xFEFF

/-- `String.prototype.trim`: strip `\s`-class characters at both ends. -/
def jsTrim (s : Str) : Str :=
  ((s.dropWhile jsWhitespaceChar).reverse.dropWhile jsWhitespaceChar).reverse

/-- `text.split(sep)` for a one-character separator: JavaScript's split,
which yields `[""]` on the empty string and keeps empty pieces. -/
def splitChar (sep : Char) : Str → List Str
  | [] => [[]]
  | c :: rest =>
    if c = sep then [] :: splitChar sep rest
    else
      match splitChar sep rest with
      | [] => [[c]]
      | t :: ts => (c :: t) :: ts

/-- `pieces.join(sep)` for a one-character separator. -/
def joinChar (sep : Char) : List Str → Str
  | [] => []
  | [l] => l
  | l :: rest => l ++ sep :: joinChar sep rest

/-- Greedy `\d+`: split a string into its longest digit prefix and the rest. -/
def takeDigits (s : Str) : Str × Str :=
  (s.takeWhile Char.isDigit, s.dropWhile Char.isDigit)

/-- The number of leading `' '` characters of a line (the regex `^( *)`). -/
def countLeadingSpaces (s : Str) : Nat :=
  (s.takeWhile (fun c => c = ' ')).length

/-- Whether a line starts with a tab (the regex `^\t`). -/
def startsWithTab : Str → Bool
  | '\t' :: _ => true
  | _ => false

/-! ## Numbers: rendering and parsing -/

/-- The decimal digit character for `d < 10`. -/
def digitChar (d : Nat) : Char := Char.ofNat (48 + d)

/-- Digits of `n` in base 10, most significant first; `[]` for `0`.
The first argument is fuel (`fuel ≥ n` suffices). -/
def natDigitsAux : Nat → Nat → List Char
  | 0, _ => []
  | fuel + 1, n =>
    if n = 0 then [] else natDigitsAux fuel (n / 10) ++ [digitChar (n % 10)]

/-- Decimal rendering of a natural number. -/
def renderNat (n : Nat) : Str :=
  if n = 0 then ['0'] else natDigitsAux n n

/-- Decimal rendering of an integer. -/
def renderInt (i : Int) : Str :=
  if i < 0 then '-' :: renderNat i.natAbs else renderNat i.natAbs

/-- Value of a string of decimal digits (callers guarantee digits). -/
def parseNatDigits (l : Str) : Nat :=
  l.foldl (fun a c => a * 10 + (c.toNat - 48)) 0

/-- The numeric-lexeme test `^-?\d+(\.\d+)?([eE][+-]?\d+)?$`. -/
def numericLexeme (s : Str) : Bool :=
  let s1 := match s with
    | '-' :: r => r
    | _ => s
  let (ip, r) := takeDigits s1
  if ip.isEmpty then false
  else
    match r with
    | [] => true
    | '.' :: r2 =>
      let (fp, r3) := takeDigits r2
      if fp.isEmpty then false
      else
        match r3 with
        | [] => true
        | e :: r4 =>
          if e = 'e' || e = 'E' then
            let r5 := match r4 with
              | c :: r6 => if c = '+' || c = '-' then r6 else r4
              | [] => []
            let (ep, r7) := takeDigits r5
            !ep.isEmpty && r7.isEmpty
          else false
    | e :: r4 =>
      if e = 'e' || e = 'E' then
        let r5 := match r4 with
          | c :: r6 => if c = '+' || c = '-' then r6 else r4
          | [] => []
        let (ep, r7) := takeDigits r5
        !ep.isEmpty && r7.isEmpty
      else false

/-- Exact value of a token matching the numeric lexeme (`Number(token)`
in the source; modelled without IEEE rounding): the integer-and-fraction
digits scaled by the signed decimal exponent. -/
def parseNumericToken (s : Str) : ℚ :=
  let (neg, s1) : Bool × Str := match s with
    | '-' :: r => (true, r)
    | _ => (false, s)
  let (ip, r) := takeDigits s1
  let (fp, r2) : Str × Str := match r with
    | '.' :: r3 => takeDigits r3
    | _ => ([], r)
  let e : Int := match r2 with
    | c :: r4 =>
      if c = 'e' || c = 'E' then
        match r4 with
        | '-' :: r5 => -(parseNatDigits (takeDigits r5).1 : Int)
        | '+' :: r5 => (parseNatDigits (takeDigits r5).1 : Int)
        | _ => (parseNatDigits (takeDigits r4).1 : Int)
      else 0
    | [] => 0
  let base : Int := (parseNatDigits (ip ++ fp) : Int)
  let ex : Int := e - fp.length
  let v : ℚ :=
    if 0 ≤ ex then mkRat (base * (10 : Int) ^ ex.toNat) 1
    else mkRat base ((10 : Nat) ^ (-ex).toNat)
  if neg then -v else v

/-! ## Number canonicalization (`canonicalizeNumber` in ToonUtils) -/

/-- Strip trailing zeros after a decimal point: the source's
`if (str.includes('.')) str = str.replace(/\.?0+$/, '')`. -/
def stripTrailingZeros (s : Str) : Str :=
  if s.contains '.' && s.getLast? = some '0' then
    let r := s.reverse.dropWhile (fun c => c = '0')
    (match r with
     | '.' :: t => t
     | _ => r).reverse
  else s

/-- One application of the replacement `^(-?)0+(\d)` → `$1$2`
(with the regex engine's backtracking for `0+` followed by `\d`). -/
def dropLeadingZeroRun (s : Str) : Str :=
  let (sign, rest) : Str × Str := match s with
    | '-' :: r => (['-'], r)
    | _ => ([], s)
  let zs := rest.takeWhile (fun c => c = '0')
  let t := rest.dropWhile (fun c => c = '0')
  if zs.isEmpty then s
  else
    match t with
    | c :: t2 => if c.isDigit then sign ++ c :: t2 else
        if zs.length ≥ 2 then sign ++ '0' :: t else s
    | [] => if zs.length ≥ 2 then sign ++ '0' :: t else s

/-- The source's leading-zero removal: applied unless the string is
`"0"` or starts with `"0."`. -/
def stripLeadingZeros (s : Str) : Str :=
  if s = ['0'] || (s.take 2 = ['0', '.']) then s
  else dropLeadingZeroRun s

/-- Least `k ≤ 64` with `den ∣ 10^k`, if any (dyadic/decimal denominators;
all double-representable values have such a `k`). -/
def pow10Mult (den : Nat) : Option Nat :=
  (List.range 65).find? (fun k => 10 ^ k % den = 0)

/-- Digits of `n` with a decimal point placed `k` digits from the right
(`k ≥ 1`), zero-padded on the left as needed. -/
def fixedPointDigits (n k : Nat) : Str :=
  let ds := renderNat n
  let ds := if ds.length ≤ k then List.replicate (k + 1 - ds.length) '0' ++ ds else ds
  ds.take (ds.length - k) ++ '.' :: ds.drop (ds.length - k)

/-- `canonicalizeNumber` from ToonUtils.  The source stringifies the
double (expanding exponential notation to plain fixed point), then
strips trailing zeros after a decimal point and superfluous leading
zeros, with `-0` rendered as `0`.  Modelled as the exact decimal
expansion of the rational with the same two normalisation passes; the
non-finite branch cannot arise in the model. -/
def canonicalizeNumber (q : ℚ) : Str :=
  if q = 0 then ['0']
  else
    let sign : Str := if q.num < 0 then ['-'] else []
    let raw : Str :=
      if q.den = 1 then renderNat q.num.natAbs
      else
        match pow10Mult q.den with
        | some k => fixedPointDigits (q.num.natAbs * 10 ^ k / q.den) k
        | none => renderNat (q.num.natAbs / q.den)
    stripLeadingZeros (stripTrailingZeros (sign ++ raw))

/-! ## The JSON data model -/

/-- Delimiters: comma, tab, pipe (`types.ts`). -/
inductive Delim where
  | comma
  | tab
  | pipe
deriving DecidableEq, Repr

/-- The delimiter's character. -/
def Delim.char : Delim → Char
  | .comma => ','
  | .tab => '\t'
  | .pipe => '|'

/-- The JSON value model: the closed sum of six variants (§3 of the
spec).  Objects are ordered key/value lists; the source's JS objects
have unique keys, which theorems assume via `Nodup` hypotheses where
it matters. -/
inductive Json where
  | null
  | bool (b : Bool)
  | num (q : ℚ)
  | str (s : Str)
  | arr (elems : List Json)
  | obj (entries : List (Str × Json))

instance : Inhabited Json := ⟨Json.null⟩

/-- A computable size for `Json` values, used only to compute fuel
bounds inside `encode` (the derived `SizeOf` has no executable code
for this nested inductive). -/
def jsonSize : Json → Nat
  | .null => 1
  | .bool _ => 1
  | .num _ => 1
  | .str _ => 1
  | .arr l => 1 + (l.attach.map (fun x => jsonSize x.1)).sum
  | .obj o => 1 + (o.attach.map (fun p => jsonSize p.1.2)).sum
decreasing_by
· have h := List.sizeOf_lt_of_mem x.2
  simp only [Json.arr.sizeOf_spec]
  omega
· have h := List.sizeOf_lt_of_mem p.2
  obtain ⟨⟨a, b⟩, hp⟩ := p
  simp only [Json.obj.sizeOf_spec]
  simp at h ⊢
  omega

/-- Object representation: ordered key/value list. -/
abbrev Obj := List (Str × Json)

/-- JS object property assignment `o[k] = v`: update in place if the key
exists (keeping its position), otherwise append. -/
def setKey (o : Obj) (k : Str) (v : Json) : Obj :=
  if o.any (fun p => p.1 = k) then
    o.map (fun p => if p.1 = k then (k, v) else p)
  else o ++ [(k, v)]

/-- Property lookup `o[k]` (first binding; JS objects have unique keys). -/
def lookupKey (o : Obj) (k : Str) : Option Json :=
  (o.find? (fun p => p.1 = k)).map (fun p => p.2)

/-! ## ToonUtils -/

/-- Decoding errors (`ToonDecodingError`), tagged with the error site and
the 1-based line number where the source supplies one. -/
inductive DErr where
  | tabsInIndent (lineNumber : Nat)
  | indentNotMultiple (lineNumber : Nat)
  | invalidHeader (lineNumber : Nat)
  | countMismatch (lineNumber : Nat)
  | rowFieldMismatch (lineNumber : Nat)
  | blankInArray (lineNumber : Nat)
  | badElemIndent (lineNumber : Nat)
  | invalidEscape
  | pathConflict
  | outOfFuel
deriving DecidableEq, Repr

/-- Per-character escaping: `\\ \" \n \r \t`, all other characters
unchanged.  (The source's chain of global replaces touches each original
character exactly once, since no replacement introduces a character that
a later replace targets.) -/
def escChar (c : Char) : Str :=
  if c = '\\' then ['\\', '\\']
  else if c = '"' then ['\\', '"']
  else if c = '\n' then ['\\', 'n']
  else if c = '\r' then ['\\', 'r']
  else if c = '\t' then ['\\', 't']
  else [c]

/-- `escapeString` from ToonUtils. -/
def escapeString (s : Str) : Str := (s.map escChar).flatten

/-- The character a valid escape `\c` stands for, if any. -/
def unescChar? (c : Char) : Option Char :=
  if c = '\\' then some '\\'
  else if c = '"' then some '"'
  else if c = 'n' then some '\n'
  else if c = 'r' then some '\r'
  else if c = 't' then some '\t'
  else none

/-- `unescapeString` from ToonUtils: scan left to right; `\` followed by
a character outside the escape set, or a trailing `\`, is an invalid
escape error. -/
def unescapeString : Str → Except DErr Str
  | [] => .ok []
  | ['\\'] => .error .invalidEscape
  | '\\' :: c :: rest =>
    match unescChar? c with
    | some c2 => (unescapeString rest).map (fun r => c2 :: r)
    | none => .error .invalidEscape
  | c :: rest => (unescapeString rest).map (fun r => c :: r)

/-- Encoding context: array element vs. object value. -/
inductive ECtx where
  | array
  | object
deriving DecidableEq, Repr

/-- Leading-zero lexeme `^0\d+$` (like `"007"`). -/
def leadingZeroLexeme : Str → Bool
  | '0' :: rest => !rest.isEmpty && rest.all Char.isDigit
  | _ => false

/-- `needsQuoting` from ToonUtils: the string quoting predicate.
`activeDelimiter`/`documentDelimiter` are the one-character delimiter
strings the source passes. -/
def needsQuoting (value : Str) (activeDelimiter documentDelimiter : Char)
    (context : ECtx) : Bool :=
  if value.isEmpty then true
  else if (match value.head? with
           | some c => jsWhitespaceChar c
           | none => false) ||
          (match value.getLast? with
           | some c => jsWhitespaceChar c
           | none => false) then true
  else if value = ("true").data || value = ("false").data || value = ("null").data then true
  else if numericLexeme value then true
  else if leadingZeroLexeme value then true
  else if value.any (fun c => c = ':' || c = '"' || c = '\\' ||
           c = '[' || c = ']' || c = obrace || c = cbrace) then true
  else if value.any (fun c => c = '\n' || c = '\r' || c = '\t') then true
  else if value = ['-'] || (match value with
           | '-' :: c :: _ => !c.isDigit
           | _ => false) then true
  else
    let relevantDelimiter := match context with
      | .array => activeDelimiter
      | .object => documentDelimiter
    value.contains relevantDelimiter

/-- `isNumericToken` from ToonUtils. -/
def isNumericToken (token : Str) : Bool :=
  numericLexeme token && !token.isEmpty && token ≠ ['-']

/-- `isIdentifierSegment`: `^[A-Za-z_][A-Za-z0-9_]*$`. -/
def isIdentLeadChar (c : Char) : Bool :=
  ('A' ≤ c && c ≤ 'Z') || ('a' ≤ c && c ≤ 'z') || c = '_'

/-- A character allowed after the first in an identifier segment. -/
def isIdentTailChar (c : Char) : Bool :=
  isIdentLeadChar c || c.isDigit

/-- `isIdentifierSegment` from ToonUtils. -/
def isIdentifierSegment : Str → Bool
  | [] => false
  | c :: rest => isIdentLeadChar c && rest.all isIdentTailChar

/-- `isValidKey`: `^[A-Za-z_][A-Za-z0-9_.]*$` (dots allowed). -/
def isValidKey : Str → Bool
  | [] => false
  | c :: rest => isIdentLeadChar c && rest.all (fun c2 => isIdentTailChar c2 || c2 = '.')

/-- `keyNeedsQuoting` from ToonUtils. -/
def keyNeedsQuoting (key : Str) : Bool := !isValidKey key

/-- `indent(level, size)`: the indentation string. -/
def indent (level size : Nat) : Str := List.replicate (level * size) ' '

/-- `parseNumber` from ToonUtils (`Number(token)`); only called on
tokens that passed `isNumericToken`, modelled exactly. -/
def parseNumber (token : Str) : ℚ := parseNumericToken token

/-- `parseToken` from ToonUtils: literal / numeric / string classification. -/
def parseToken (token : Str) : Json :=
  if token = ("true").data then .bool true
  else if token = ("false").data then .bool false
  else if token = ("null").data then .null
  else if isNumericToken token then .num (parseNumber token)
  else .str token

/-- `isPlainObject` (object, not array, not null) as a variant test. -/
def Json.isPlainObject : Json → Bool
  | .obj _ => true
  | _ => false

/-- `isArrayOfPrimitives` from ToonUtils. -/
def isPrimitiveValue : Json → Bool
  | .null => true
  | .bool _ => true
  | .num _ => true
  | .str _ => true
  | _ => false

/-- `isArrayOfPrimitives` from ToonUtils (no objects or arrays). -/
def isArrayOfPrimitives (arr : List Json) : Bool :=
  arr.all isPrimitiveValue

/-- Lexicographic order on strings by code point (JS default sort). -/
def strLe : Str → Str → Bool
  | [], _ => true
  | _ :: _, [] => false
  | a :: as2, b :: bs =>
    if a.toNat < b.toNat then true
    else if a.toNat > b.toNat then false
    else strLe as2 bs

/-- Stable insertion into a sorted list. -/
def insertSorted (x : Str) : List Str → List Str
  | [] => [x]
  | y :: ys => if strLe x y then x :: y :: ys else y :: insertSorted x ys

/-- Stable insertion sort by `strLe` (JS `Array.prototype.sort` with the
default code-point comparison). -/
def sortStrs : List Str → List Str
  | [] => []
  | x :: xs => insertSorted x (sortStrs xs)

/-- `Object.keys(o).sort()`: the keys in code-point order. -/
def sortedKeys (o : Obj) : List Str :=
  sortStrs (o.map (fun p => p.1))

/-- `isUniformArray` from ToonUtils: non-empty, all plain objects with a
non-empty shared sorted key list, and all values primitive. -/
def isUniformArray (arr : List Json) : Bool :=
  if arr.isEmpty then false
  else if !arr.all Json.isPlainObject then false
  else
    let objects : List Obj := arr.map (fun j => match j with
      | .obj o => o
      | _ => [])
    let firstKeys := sortedKeys objects.headI
    if firstKeys.isEmpty then false
    else if !(objects.all (fun o => sortedKeys o = firstKeys)) then false
    else objects.all (fun o => o.all (fun p => isPrimitiveValue p.2))

/-! ## Encoder (`ToonEncoder.ts`)

The mutually recursive encode functions are defunctionalized into the
single fuel-structural `encodeStep`, so that the kernel can evaluate
them; `encode` supplies fuel that dominates the source's total call
count. -/

/-- Encoder options (`EncoderOptions` in types.ts); `keyFolding = true`
is the source's `'safe'`, `flattenDepth = none` is `Infinity`. -/
structure EncOpts where
  indent : Nat
  delimiter : Delim
  keyFolding : Bool
  flattenDepth : Option Nat

/-- The inline separator: `", "` for comma, the delimiter itself otherwise. -/
def inlineSep (d : Delim) : Str :=
  if d = .comma then [',', ' '] else [d.char]

/-- `pieces.join(sep)` for a multi-character separator. -/
def joinSep (sep : Str) : List Str → Str
  | [] => []
  | [x] => x
  | x :: rest => x ++ sep ++ joinSep sep rest

/-- `encodeString`: quote-and-escape when `needsQuoting` says so. -/
def encodeString (opts : EncOpts) (value : Str) (delimiter : Delim)
    (context : ECtx) : Str :=
  if needsQuoting value delimiter.char opts.delimiter.char context then
    '"' :: escapeString value ++ ['"']
  else value

/-- A key as emitted: quoted-and-escaped iff `keyNeedsQuoting`. -/
def encodeKey (k : Str) : Str :=
  if keyNeedsQuoting k then '"' :: escapeString k ++ ['"'] else k

/-- `encodePrimitiveValue` (array context). -/
def encodePrimitiveValue (opts : EncOpts) (value : Json) (delimiter : Delim) : Str :=
  match value with
  | .null => ("null").data
  | .bool b => if b then ("true").data else ("false").data
  | .num q => canonicalizeNumber q
  | .str s => encodeString opts s delimiter .array
  | _ => ("null").data

/-- Primitive object-property rendering (the inline cases of
`encodeObject`, which quote in `object` context). -/
def encodeObjPrimValue (opts : EncOpts) (value : Json) : Str :=
  match value with
  | .null => ("null").data
  | .bool b => if b then ("true").data else ("false").data
  | .num q => canonicalizeNumber q
  | .str s => encodeString opts s opts.delimiter .object
  | _ => ("null").data

/-- The delimiter symbol inside a header: empty for comma, `\t`, `|`. -/
def delimSymStr (d : Delim) : Str :=
  match d with
  | .comma => []
  | .tab => ['\t']
  | .pipe => ['|']

/-- The non-tabular array header `${indent}${key}[${N}${sym}]:`. -/
def arrayHeaderStr (opts : EncOpts) (key : Option Str) (n depth : Nat) : Str :=
  let keyPart : Str := match key with
    | some k => encodeKey k
    | none => []
  indent depth opts.indent ++ keyPart ++ '[' :: renderNat n ++
    delimSymStr opts.delimiter ++ [']', ':']

/-- The element objects of an array that passed `isUniformArray`
(the source's cast `arr as Record<string, unknown>[]`). -/
def objsOfArr (l : List Json) : List Obj :=
  l.map (fun j => match j with
    | .obj o => o
    | _ => [])

/-- `encodeTabular`: header carrying the sorted field list, then one row
per element with the values in sorted field order. -/
def encodeTabular (opts : EncOpts) (objs : List Obj) (key : Option Str)
    (depth : Nat) : List Str :=
  let delimiter := opts.delimiter
  let fields := sortedKeys objs.headI
  let keyPart : Str := match key with
    | some k => encodeKey k
    | none => []
  let encodedFields := fields.map encodeKey
  let fieldsStr := joinSep (inlineSep delimiter) encodedFields
  let header := indent depth opts.indent ++ keyPart ++ '[' :: renderNat objs.length ++
    delimSymStr delimiter ++ [']'] ++ obrace :: fieldsStr ++ [cbrace, ':']
  header :: objs.map (fun o =>
    indent (depth + 1) opts.indent ++
      joinSep (inlineSep delimiter)
        (fields.map (fun f => encodePrimitiveValue opts ((lookupKey o f).getD .null) delimiter)))

/-- `encodePrimitiveArray`: inline when the line stays under 80 columns
and holds no newline, expanded otherwise. -/
def encodePrimitiveArray (opts : EncOpts) (arr : List Json) (key : Option Str)
    (depth : Nat) : List Str :=
  let header := arrayHeaderStr opts key arr.length depth
  let encodedValues := arr.map (fun item => encodePrimitiveValue opts item opts.delimiter)
  let inlineValues := joinSep (inlineSep opts.delimiter) encodedValues
  let inlineLine := header ++ ' ' :: inlineValues
  if inlineLine.length < 80 && !inlineValues.contains '\n' then [inlineLine]
  else header :: encodedValues.map (fun e => indent (depth + 1) opts.indent ++ e)

/-- The defunctionalized encoder calls: a value at a depth (with the
optional active delimiter), an array with its optional key, the element
loop of `encodeMixedArray`, and the entry loop of `encodeObject`. -/
inductive EncCall where
  | val (v : Json) (depth : Nat) (activeDelimiter : Option Delim)
  | array (l : List Json) (key : Option Str) (depth : Nat)
  | mixedItems (l : List Json) (depth : Nat)
  | objEntries (o : Obj) (depth : Nat)

/-- One fuel-structural step of the encoder: `encodeValue`,
`encodeArray`, `encodeMixedArray`'s loop and `encodeObject`'s loop from
the source, fused.  Fuel exhaustion returns no lines; `encode` supplies
fuel above the source's total call count, so that branch is
unreachable from `encode`. -/
def encodeStep (opts : EncOpts) : Nat → EncCall → List Str
  | 0, _ => []
  | fuel + 1, c =>
    match c with
    | .val v depth activeDelimiter =>
      match v with
      | .null => [("null").data]
      | .bool b => [if b then ("true").data else ("false").data]
      | .num q => [canonicalizeNumber q]
      | .str s => [encodeString opts s (activeDelimiter.getD opts.delimiter) .object]
      | .arr l => encodeStep opts fuel (.array l none depth)
      | .obj o => encodeStep opts fuel (.objEntries o depth)
    | .array l key depth =>
      if isUniformArray l then encodeTabular opts (objsOfArr l) key depth
      else if isArrayOfPrimitives l then encodePrimitiveArray opts l key depth
      else arrayHeaderStr opts key l.length depth :: encodeStep opts fuel (.mixedItems l depth)
    | .mixedItems l depth =>
      match l with
      | [] => []
      | item :: rest =>
        (match item with
         | .arr nested => encodeStep opts fuel (.array nested none (depth + 1))
         | .obj o => encodeStep opts fuel (.objEntries o (depth + 1))
         | p => [indent (depth + 1) opts.indent ++ encodePrimitiveValue opts p opts.delimiter]) ++
        encodeStep opts fuel (.mixedItems rest depth)
    | .objEntries o depth =>
      match o with
      | [] => []
      | (key, value) :: rest =>
        (match value with
         | .arr l => encodeStep opts fuel (.array l (some key) depth)
         | .obj nested =>
           (indent depth opts.indent ++ encodeKey key ++ [':']) ::
             encodeStep opts fuel (.objEntries nested (depth + 1))
         | p => [indent depth opts.indent ++ encodeKey key ++ [':', ' '] ++
             encodeObjPrimValue opts p]) ++
        encodeStep opts fuel (.objEntries rest depth)

/-- `normalizeValue` (§3): in the model's domain (no `undefined`,
functions, symbols or non-finite numbers) only the recursive traversal
of arrays and objects remains.  Fuel-structural; fuel above the value's
depth makes the exhaustion branch unreachable. -/
def normalizeValueF : Nat → Json → Json
  | 0, v => v
  | fuel + 1, v =>
    match v with
    | .arr l => .arr (l.map (normalizeValueF fuel))
    | .obj o => .obj (o.map (fun p => (p.1, normalizeValueF fuel p.2)))
    | x => x

/-- `normalizeValue` with sufficient fuel. -/
def normalizeValue (v : Json) : Json := normalizeValueF (jsonSize v + 1) v

/-- The single-key chain walk of `extractFoldableChain`:
`maxD = none` is `Infinity`. -/
def extractChainGo : Nat → Json → Option Nat → Nat → List Str → List Str
  | 0, _, _, _, chain => chain
  | fuel + 1, current, maxD, depth, chain =>
    if (match maxD with
        | none => true
        | some m => depth < m) then
      match current with
      | .obj [(k, v)] => extractChainGo fuel v maxD (depth + 1) (chain ++ [k])
      | _ => chain
    else chain

/-- `extractFoldableChain` with sufficient fuel. -/
def extractFoldableChain (key : Str) (value : Json) (maxD : Option Nat) : List Str :=
  extractChainGo (jsonSize value + 1) value maxD 1 [key]

/-- `getLeafValue`: follow a single-key chain `d` steps. -/
def getLeafValueGo : Nat → Json → Nat → Json
  | 0, v, _ => v
  | _ + 1, v, 0 => v
  | fuel + 1, v, d + 1 =>
    match v with
    | .obj [(_, inner)] => getLeafValueGo fuel inner d
    | _ => v

/-- `getLeafValue` with sufficient fuel. -/
def getLeafValue (value : Json) (d : Nat) : Json :=
  getLeafValueGo (jsonSize value + 1) value d

/-- The entry loop of `foldKeys`, fuel-structural (fuel dominates the
entry count plus nesting depth when called from `encode`). -/
def foldStep (opts : EncOpts) : Nat → Obj → Obj → Obj
  | 0, acc, _ => acc
  | _ + 1, acc, [] => acc
  | fuel + 1, acc, (key, value) :: rest =>
    let chain := extractFoldableChain key value opts.flattenDepth
    let acc2 :=
      if chain.length > 1 && chain.all isIdentifierSegment then
        setKey acc (joinChar '.' chain) (getLeafValue value (chain.length - 1))
      else
        match value with
        | .obj nested => setKey acc key (.obj (foldStep opts fuel [] nested))
        | _ => setKey acc key value
    foldStep opts fuel acc2 rest

/-- Fuel bound for `encodeStep` from `encode`: each source-level call
handles at least one constructor or list cell, so `sizeOf` dominates
the call count. -/
def encodeFuel (v : Json) : Nat := 4 * jsonSize v + 8

/-- `ToonEncoder.encode`: normalize, optionally fold keys, encode, join
the lines with `\n` and no trailing newline. -/
def encode (opts : EncOpts) (value : Json) : Str :=
  let normalized := normalizeValue value
  let folded :=
    if opts.keyFolding && normalized.isPlainObject then
      match normalized with
      | .obj o => Json.obj (foldStep opts (jsonSize (Json.obj o) + 2) [] o)
      | x => x
    else normalized
  joinChar '\n' (encodeStep opts (encodeFuel folded) (.val folded 0 none))

/-! ## Decoder (`ToonDecoder.ts`) -/

/-- Decoder options (`DecoderOptions` in types.ts); `expandPaths = true`
is the source's `'safe'`. -/
structure DecOpts where
  indent : Nat
  strict : Bool
  expandPaths : Bool

/-- A prepared line (`ParsedLine` in types.ts). -/
structure ParsedLine where
  content : Str
  indent : Nat
  lineNumber : Nat
  isEmpty : Bool
deriving Repr

/-- The body of `parseLines`: per line, the strict-mode leading-tab test
(`^\t`), the leading-space count, and the strict-mode multiple-of-indent
test; `i` is the 0-based index of the current line. -/
def parseLinesGo (opts : DecOpts) : List Str → Nat → Except DErr (List ParsedLine)
  | [], _ => .ok []
  | l :: rest, i =>
    if opts.strict && startsWithTab l then .error (.tabsInIndent (i + 1))
    else
      let ind := countLeadingSpaces l
      if opts.strict && ind > 0 && ind % opts.indent ≠ 0 then
        .error (.indentNotMultiple (i + 1))
      else
        (parseLinesGo opts rest (i + 1)).map
          (fun r => ⟨l, ind, i + 1, (jsTrim l).isEmpty⟩ :: r)

/-- `parseLines`: split on `\n` (no `\r` stripping in the source) and
prepare each line. -/
def parseLines (opts : DecOpts) (text : Str) : Except DErr (List ParsedLine) :=
  parseLinesGo opts (splitChar '\n' text) 0

/-- The root form of a document (§5). -/
inductive RootForm where
  | array
  | primitive
  | object
deriving DecidableEq, Repr

/-- The anchored array-header test `^\[\d+[\t|]?\]`. -/
def matchesHeaderStart : Str → Bool
  | '[' :: rest =>
    let (ds, r) := takeDigits rest
    !ds.isEmpty &&
      (match r with
       | ']' :: _ => true
       | '\t' :: ']' :: _ => true
       | '|' :: ']' :: _ => true
       | _ => false)
  | _ => false

/-- The unanchored search `/\[\d+[\t|]?\]/.test(s)`. -/
def containsHeaderPattern : Str → Bool
  | [] => false
  | c :: rest => matchesHeaderStart (c :: rest) || containsHeaderPattern rest

/-- The prefix captured by `^(.*?)\[` (text before the first `[`),
if the string contains `[` at all. -/
def beforeFirstBracket : Str → Option Str
  | [] => none
  | '[' :: _ => some []
  | c :: rest => (beforeFirstBracket rest).map (fun t => c :: t)

/-- `determineRootForm` (§5): array if the first line starts like a
header; primitive if the document is a single line without any colon;
object otherwise. -/
def determineRootForm (lines : List ParsedLine) : RootForm :=
  match lines with
  | [] => .object
  | first :: _ =>
    let firstLine := jsTrim first.content
    if matchesHeaderStart firstLine then .array
    else if lines.length = 1 && !firstLine.contains ':' then .primitive
    else .object

/-- Parsed array header (`HeaderInfo` in types.ts). -/
structure HeaderInfo where
  key : Option Str
  length : Nat
  delimiter : Delim
  fields : Option (List Str)
  rawLine : Str
  lineNumber : Nat

/-- Attempt to match `\d+([\t|])?\](?:\{([^}]+)\})?:(.*)$` directly after
a `[`; returns the digit run, the optional delimiter symbol, the
optional field text and the rest after the colon. -/
def tryHeaderTail (rest : Str) : Option (Str × Option Char × Option Str × Str) :=
  let (ds, r) := takeDigits rest
  if ds.isEmpty then none
  else
    let (sym, r2) : Option Char × Str := match r with
      | '\t' :: rr => (some '\t', rr)
      | '|' :: rr => (some '|', rr)
      | _ => (none, r)
    match r2 with
    | ']' :: r3 =>
      match r3 with
      | ':' :: r4 => some (ds, sym, none, r4)
      | c :: r4 =>
        if c = obrace then
          let fs := r4.takeWhile (fun x => x ≠ cbrace)
          let r5 := r4.dropWhile (fun x => x ≠ cbrace)
          match r5 with
          | c2 :: ':' :: r6 =>
            if c2 = cbrace && !fs.isEmpty then some (ds, sym, some fs, r6) else none
          | _ => none
        else none
      | [] => none
    | _ => none

/-- The lazy `^(.*?)\[...` scan: the first `[` from which the rest of
the header regex matches wins; `keyAcc` holds the key part reversed. -/
def headerScan : Str → Str → Option (Str × Str × Option Char × Option Str × Str)
  | _, [] => none
  | keyAcc, '[' :: rest =>
    match tryHeaderTail rest with
    | some (ds, sym, fs, tail2) => some (keyAcc.reverse, ds, sym, fs, tail2)
    | none => headerScan ('[' :: keyAcc) rest
  | keyAcc, c :: rest => headerScan (c :: keyAcc) rest

/-- Unquote a token or key part: if it starts and ends with `"`,
unescape the inside (the source's `startsWith/endsWith/slice(1, -1)`,
under which a lone `"` also counts as quoted). -/
def unquoteIfQuoted (token : Str) : Except DErr Str :=
  if token.head? = some '"' && token.getLast? = some '"' then
    unescapeString ((token.drop 1).dropLast)
  else .ok token

/-- The tokenizer loop of `parseDelimitedTokens`: backslash makes the
next character literal, `"` toggles in-quotes, and outside quotes the
delimiter (for comma, also the two-character `", "`) splits; every
yielded token is trimmed, and the final token is kept only when its
trim is non-empty. -/
def pdtGo (delim : Char) : Nat → Str → Str → Bool → Bool → List Str
  | _, [], cur, _, _ => if (jsTrim cur).isEmpty then [] else [jsTrim cur]
  | 0, _ :: _, cur, _, _ => if (jsTrim cur).isEmpty then [] else [jsTrim cur]
  | fuel + 1, c :: rest, cur, inQ, esc =>
    if esc then pdtGo delim fuel rest (cur ++ [c]) inQ false
    else if c = '\\' then pdtGo delim fuel rest (cur ++ [c]) inQ true
    else if c = '"' then pdtGo delim fuel rest (cur ++ [c]) (!inQ) esc
    else if inQ then pdtGo delim fuel rest (cur ++ [c]) inQ esc
    else if delim = ',' && c = ',' && rest.head? = some ' ' then
      jsTrim cur :: pdtGo delim fuel (rest.drop 1) [] inQ esc
    else if c = delim then jsTrim cur :: pdtGo delim fuel rest [] inQ esc
    else pdtGo delim fuel rest (cur ++ [c]) inQ esc

/-- `parseDelimitedTokens` (the fuel, one beyond the text length, is
never exhausted: every step consumes at least one character). -/
def parseDelimitedTokens (text : Str) (delim : Char) : List Str :=
  pdtGo delim (text.length + 1) text [] false false

/-- `parseArrayHeader`: match the header regex on the trimmed line,
unquote the key, read the length and delimiter symbol, and tokenize
the field list with the array's delimiter.  (The source's
`isNaN/negative` length check cannot fire after `\d+`.) -/
def parseArrayHeader (line : ParsedLine) : Except DErr HeaderInfo :=
  let content := jsTrim line.content
  match headerScan [] content with
  | none => .error (.invalidHeader line.lineNumber)
  | some (keyPart, ds, sym, fieldsPart, _) => do
    let keyTrim := jsTrim keyPart
    let key ← (if keyTrim.isEmpty then pure none
      else (unquoteIfQuoted keyTrim).map some)
    let delimiter : Delim := match sym with
      | some '\t' => .tab
      | some '|' => .pipe
      | _ => .comma
    let fields ← (match fieldsPart with
      | none => pure none
      | some fp => ((parseDelimitedTokens fp delimiter.char).mapM unquoteIfQuoted).map some)
    .ok ⟨key, parseNatDigits ds, delimiter, fields, content, line.lineNumber⟩

/-- `findUnquotedColon`: the position of the first colon outside quotes
(one-character backslash escapes respected), if any. -/
def fucGo : Str → Nat → Bool → Bool → Option Nat
  | [], _, _, _ => none
  | c :: rest, i, inQ, esc =>
    if esc then fucGo rest (i + 1) inQ false
    else if c = '\\' then fucGo rest (i + 1) inQ true
    else if c = '"' then fucGo rest (i + 1) (!inQ) esc
    else if c = ':' && !inQ then some i
    else fucGo rest (i + 1) inQ esc

/-- `findUnquotedColon`. -/
def findUnquotedColon (text : Str) : Option Nat := fucGo text 0 false false

/-- `parseTokenValue`: trim; a token both starting and ending with `"`
is unescaped as a string, anything else goes through `parseToken`. -/
def parseTokenValue (token : Str) : Except DErr Json :=
  let t := jsTrim token
  if t.head? = some '"' && t.getLast? = some '"' then
    (unescapeString ((t.drop 1).dropLast)).map Json.str
  else .ok (parseToken t)

/-- The scan of `rawLine.match(/:\s*(.+)$/)`: the rest after the first
colon that has at least one following character. -/
def ipGo : Str → Option Str
  | [] => none
  | ':' :: c :: rest => some (c :: rest)
  | _ :: rest => ipGo rest

/-- The inline payload of a header line: the text after the first colon,
trimmed, when non-empty (`inlineMatch && inlineMatch[1].trim()`). -/
def inlinePayload (s : Str) : Option Str :=
  match ipGo s with
  | some r => if (jsTrim r).isEmpty then none else some (jsTrim r)
  | none => none

/-- The scan loop of `findNextSiblingIndex` over the remaining lines. -/
def fnsAux (expected total : Nat) : List ParsedLine → Nat → Nat
  | [], _ => total
  | l :: rest, i =>
    if l.isEmpty then fnsAux expected total rest (i + 1)
    else if l.indent ≤ expected then i
    else fnsAux expected total rest (i + 1)

/-- `findNextSiblingIndex`: first non-blank line at or below the
expected indent after `currentIndex`, else the line count. -/
def findNextSibling (lines : List ParsedLine) (currentIndex expected : Nat) : Nat :=
  fnsAux expected lines.length (lines.drop (currentIndex + 1)) (currentIndex + 1)

/-- Decoder context: options plus the (blank-filtered) prepared lines. -/
structure DecCtx where
  strict : Bool
  indentW : Nat
  lines : List ParsedLine

/-- The strict-mode element-count check that ends `parseArray`
(`Array length mismatch`). -/
def checkCount (strict : Bool) (n lineNumber : Nat) (values : List Json) :
    Except DErr (List Json) :=
  if strict && values.length ≠ n then .error (.countMismatch lineNumber)
  else .ok values

/-- The row builder of `parseTabularArray`: each declared field in
declared order, bound to the parsed token at its position or `null`
when the row has fewer tokens. -/
def buildRowGo (tokens : List Str) : List Str → Nat → Obj → Except DErr Obj
  | [], _, row => .ok row
  | f :: fs, i, row => do
    let v ← (match tokens.get? i with
      | some t => parseTokenValue t
      | none => pure Json.null)
    buildRowGo tokens fs (i + 1) (setKey row f v)

/-- One tabular row as an object. -/
def buildRow (fields tokens : List Str) : Except DErr Obj :=
  buildRowGo tokens fields 0 []

/-- The row loop of `parseTabularArray`: read rows at deeper indent
until `N` rows are read, the lines end, or the indent drops to the
header's level; strict mode rejects blank lines and rows whose token
count differs from the field count. -/
def tabLoop (ctx : DecCtx) (fields : List Str) (delim : Char)
    (hlen baseIndent : Nat) : Nat → Nat → List Obj → Except DErr (List Obj)
  | 0, _, _ => .error .outOfFuel
  | fuel + 1, i, rows =>
    match ctx.lines.get? i with
    | none => .ok rows
    | some line =>
      if rows.length ≥ hlen then .ok rows
      else if line.isEmpty then
        if ctx.strict then .error (.blankInArray line.lineNumber)
        else tabLoop ctx fields delim hlen baseIndent fuel (i + 1) rows
      else if line.indent ≤ baseIndent then .ok rows
      else
        let tokens := parseDelimitedTokens (jsTrim line.content) delim
        if ctx.strict && tokens.length ≠ fields.length then
          .error (.rowFieldMismatch line.lineNumber)
        else do
          let row ← buildRow fields tokens
          tabLoop ctx fields delim hlen baseIndent fuel (i + 1) (rows ++ [row])

/-- The pending-object flush of the element loop of `parseArray`. -/
def flushObj : Option Obj → List Json
  | some o => [Json.obj o]
  | none => []

/-- The defunctionalized decoder calls: `parseArray` at a line index,
its element loop (base/value indents, cursor, accumulated values,
in-progress object and its seen keys), and the entry loop of
`parseObject` (start index, cursor, expected indent, accumulator). -/
inductive DecCall where
  | arr (i : Nat)
  | arrLoop (baseIndent valueIndent i : Nat) (values : List Json)
      (curObj : Option Obj) (seen : List Str)
  | objLoop (startIndex i expectedIndent : Nat) (acc : Obj)

/-- Result of a decoder call. -/
inductive DecRes where
  | vals (l : List Json)
  | object (o : Obj)

/-- Coerce a decoder result to array values (the other variant cannot
arise at the call sites). -/
def asVals : DecRes → Except DErr (List Json)
  | .vals l => .ok l
  | _ => .error .outOfFuel

/-- Coerce a decoder result to an object (the other variant cannot
arise at the call sites). -/
def asObject : DecRes → Except DErr Obj
  | .object o => .ok o
  | _ => .error .outOfFuel

/-- One fuel-structural step of the decoder: `parseArray` (with its
inline, tabular and expanded forms), the element loop of `parseArray`,
and the entry loop of `parseObject`, fused into a single function on
`DecCall`.  Fuel exhaustion raises `outOfFuel`; `decode` supplies fuel
above the source's call depth, so that error is unreachable from
`decode`. -/
def decodeStep (ctx : DecCtx) : Nat → DecCall → Except DErr DecRes
  | 0, _ => .error .outOfFuel
  | fuel + 1, call =>
    match call with
    | .arr i =>
      match ctx.lines.get? i with
      | none => .error .outOfFuel
      | some headerLine => do
        let header ← parseArrayHeader headerLine
        match inlinePayload header.rawLine with
        | some valuesStr => do
          let values ← (parseDelimitedTokens valuesStr header.delimiter.char).mapM
            parseTokenValue
          (checkCount ctx.strict header.length header.lineNumber values).map .vals
        | none =>
          match header.fields with
          | some fields => do
            let rows ← tabLoop ctx fields header.delimiter.char header.length
              headerLine.indent fuel (i + 1) []
            .ok (.vals (rows.map Json.obj))
          | none => do
            let r ← decodeStep ctx fuel (.arrLoop headerLine.indent (headerLine.indent + ctx.indentW) (i + 1) [] none [])
            let values ← asVals r
            (checkCount ctx.strict header.length header.lineNumber values).map .vals
    | .arrLoop b v i values curObj seen =>
      match ctx.lines.get? i with
      | none => .ok (.vals (values ++ flushObj curObj))
      | some line =>
        if line.isEmpty then
          if ctx.strict then .error (.blankInArray line.lineNumber)
          else decodeStep ctx fuel (.arrLoop b v (i + 1) values curObj seen)
        else if line.indent ≤ b then .ok (.vals (values ++ flushObj curObj))
        else if line.indent < v then .error (.badElemIndent line.lineNumber)
        else
          let content := jsTrim line.content
          if matchesHeaderStart content then do
            let r ← decodeStep ctx fuel (.arr i)
            let nested ← asVals r
            let arrayHeader ← parseArrayHeader line
            let values2 := values ++ flushObj curObj ++ [Json.arr nested]
            match inlinePayload arrayHeader.rawLine with
            | some _ => decodeStep ctx fuel (.arrLoop b v (i + 1) values2 none [])
            | none => decodeStep ctx fuel (.arrLoop b v (findNextSibling ctx.lines i v) values2 none [])
          else
            match findUnquotedColon content with
            | some ci =>
              if ci > 0 then do
                let keyPart := jsTrim (content.take ci)
                let valuePart := jsTrim (content.drop (ci + 1))
                let key ← unquoteIfQuoted keyPart
                if valuePart.isEmpty then do
                  let values2 := values ++ flushObj curObj
                  let r ← decodeStep ctx fuel (.objLoop i i v [])
                  let o ← asObject r
                  decodeStep ctx fuel (.arrLoop b v (findNextSibling ctx.lines i v) (values2 ++ [Json.obj o]) none [])
                else do
                  let (values2, cur2, seen2) :=
                    if seen.contains key then
                      (values ++ flushObj curObj, ([] : Obj), ([] : List Str))
                    else (values, curObj.getD [], seen)
                  let pv ← parseTokenValue valuePart
                  decodeStep ctx fuel (.arrLoop b v (i + 1) values2 (some (setKey cur2 key pv)) (seen2 ++ [key]))
              else do
                let pv ← parseTokenValue content
                decodeStep ctx fuel (.arrLoop b v (i + 1) (values ++ flushObj curObj ++ [pv]) none [])
            | none => do
              let pv ← parseTokenValue content
              decodeStep ctx fuel (.arrLoop b v (i + 1) (values ++ flushObj curObj ++ [pv]) none [])
    | .objLoop s i e acc =>
      match ctx.lines.get? i with
      | none => .ok (.object acc)
      | some line =>
        if line.isEmpty then decodeStep ctx fuel (.objLoop s (i + 1) e acc)
        else if i > s && line.indent < e then .ok (.object acc)
        else
          let content := jsTrim line.content
          if containsHeaderPattern content then
            match beforeFirstBracket content with
            | some kp =>
              if (jsTrim kp).isEmpty then decodeStep ctx fuel (.objLoop s (i + 1) e acc)
              else do
                let header ← parseArrayHeader line
                let r ← decodeStep ctx fuel (.arr i)
                let array ← asVals r
                let acc2 := match header.key with
                  | some k => if k.isEmpty then acc else setKey acc k (Json.arr array)
                  | none => acc
                decodeStep ctx fuel (.objLoop s (findNextSibling ctx.lines i e) e acc2)
            | none => decodeStep ctx fuel (.objLoop s (i + 1) e acc)
          else
            match findUnquotedColon content with
            | none => decodeStep ctx fuel (.objLoop s (i + 1) e acc)
            | some ci => do
              let keyPart := jsTrim (content.take ci)
              let valuePart := jsTrim (content.drop (ci + 1))
              let key ← unquoteIfQuoted keyPart
              if valuePart.isEmpty then
                match ctx.lines.get? (i + 1) with
                | some nextLine =>
                  if !nextLine.isEmpty && nextLine.indent > line.indent then
                    if containsHeaderPattern (jsTrim nextLine.content) then do
                      let r ← decodeStep ctx fuel (.arr (i + 1))
                      let array ← asVals r
                      decodeStep ctx fuel (.objLoop s (findNextSibling ctx.lines (i + 1) line.indent) e (setKey acc key (Json.arr array)))
                    else do
                      let r ← decodeStep ctx fuel (.objLoop (i + 1) (i + 1) (line.indent + ctx.indentW) [])
                      let nested ← asObject r
                      decodeStep ctx fuel (.objLoop s (findNextSibling ctx.lines (i + 1) line.indent) e (setKey acc key (Json.obj nested)))
                  else decodeStep ctx fuel (.objLoop s (i + 1) e (setKey acc key Json.null))
                | none => decodeStep ctx fuel (.objLoop s (i + 1) e (setKey acc key Json.null))
              else do
                let pv ← parseTokenValue valuePart
                decodeStep ctx fuel (.objLoop s (i + 1) e (setKey acc key pv))

/-! ## Path expansion (`expandPaths`, `deepSet`) -/

/-- `key.split('.')`. -/
def splitDots (k : Str) : List Str := splitChar '.' k

/-- `isExpandable`: every dot-split segment is an identifier segment. -/
def isExpandable (k : Str) : Bool := (splitDots k).all isIdentifierSegment

/-- `deepSet`: walk the path creating (or in strict mode rejecting)
intermediate objects, and set the leaf; strict mode also rejects a
duplicate final leaf. -/
def deepSetGo (strict : Bool) : Obj → List Str → Json → Except DErr Obj
  | o, [], _ => .ok o
  | o, [last], v =>
    if strict && o.any (fun p => p.1 = last) then .error .pathConflict
    else .ok (setKey o last v)
  | o, seg :: s2 :: rest, v => do
    let child ← (match lookupKey o seg with
      | none => .ok ([] : Obj)
      | some (Json.obj co) => .ok co
      | some _ => if strict then .error .pathConflict else .ok ([] : Obj))
    let child2 ← deepSetGo strict child (s2 :: rest) v
    .ok (setKey o seg (Json.obj child2))

/-- The entry loop of `expandPaths`: dotted expandable keys are
deep-set into the accumulated result (unexpanded value), other entries
are copied with plain-object values recursively expanded.
Fuel-structural; `decode` supplies fuel above the total entry count and
nesting depth of the decoded object (each entry of a decoded object
stems from at least one input line, and arrays are not entered). -/
def expandEntries (strict : Bool) : Nat → Obj → List (Str × Json) → Except DErr Obj
  | 0, acc, _ => .ok acc
  | _ + 1, acc, [] => .ok acc
  | fuel + 1, acc, (k, v) :: rest => do
    let acc2 ←
      (if k.contains '.' && isExpandable k then deepSetGo strict acc (splitDots k) v
       else
         match v with
         | Json.obj l => (expandEntries strict fuel [] l).map
             (fun e => setKey acc k (Json.obj e))
         | _ => .ok (setKey acc k v))
    expandEntries strict fuel acc2 rest

/-- The fuel `decode` passes to `decodeStep` (see `decodeStep`). -/
def decodeFuelBound (n : Nat) : Nat := 4 * n + 8

/-- `ToonDecoder.decode`: prepare lines, drop blanks, classify the root,
parse, and optionally expand dotted paths on an object result. -/
def decode (opts : DecOpts) (text : Str) : Except DErr Json := do
  let lines ← parseLines opts text
  let nonEmptyLines := lines.filter (fun l => !l.isEmpty)
  match nonEmptyLines with
  | [] => .ok Json.null
  | first :: _ => do
    let ctx : DecCtx := ⟨opts.strict, opts.indent, nonEmptyLines⟩
    let fuel := decodeFuelBound nonEmptyLines.length
    let result ← (match determineRootForm nonEmptyLines with
      | .array => do
        let r ← decodeStep ctx fuel (.arr 0)
        let l ← asVals r
        pure (Json.arr l)
      | .primitive => parseTokenValue (jsTrim first.content)
      | .object => do
        let r ← decodeStep ctx fuel (.objLoop 0 0 0 [])
        let o ← asObject r
        pure (Json.obj o))
    match result with
    | Json.obj entries =>
      if opts.expandPaths then
        (expandEntries opts.strict (2 * nonEmptyLines.length + 8) [] entries).map Json.obj
      else .ok result
    | _ => .ok result

/-! ## Definitions used by the claim statements -/

/-- Well-escaped strings: what `unescapeString` accepts (no backslash
followed by a character outside the escape set, no trailing backslash,
in the left-to-right scan sense). -/
def wellEscaped : Str → Bool
  | [] => true
  | ['\\'] => false
  | '\\' :: c :: rest => (unescChar? c).isSome && wellEscaped rest
  | _ :: rest => wellEscaped rest

/-- ASCII whitespace (the literal reading of the spec's "leading or
trailing ASCII whitespace character"). -/
def asciiWhitespaceChar (c : Char) : Bool :=
  c = ' ' || c = '\t' || c = '\n' || c = '\r' || c.toNat = 11 || c.toNat = 12

/-- The spec's quoting predicate, verbatim (§4.L): a disjunction of the
listed conditions, with *ASCII* whitespace in the leading/trailing
test.  Used to compare the spec's wording against the source's
`needsQuoting`. -/
def specNeedsQuoting (value : Str) (activeDelimiter documentDelimiter : Char)
    (context : ECtx) : Bool :=
  value.isEmpty ||
  (match value.head? with
   | some c => asciiWhitespaceChar c
   | none => false) ||
  (match value.getLast? with
   | some c => asciiWhitespaceChar c
   | none => false) ||
  value = ("true").data || value = ("false").data || value = ("null").data ||
  numericLexeme value ||
  leadingZeroLexeme value ||
  value.any (fun c => c = ':' || c = '"' || c = '\\' ||
    c = '[' || c = ']' || c = obrace || c = cbrace) ||
  value.any (fun c => c = '\n' || c = '\r' || c = '\t') ||
  value = ['-'] ||
  (match value with
   | '-' :: c :: _ => !c.isDigit
   | _ => false) ||
  value.contains (match context with
    | .array => activeDelimiter
    | .object => documentDelimiter)

/-- The quoting predicate as a disjunction with the *JavaScript* `\s`
whitespace class in the leading/trailing test (the amended reading of
the claim; everything else as in `specNeedsQuoting`). -/
def amendedNeedsQuoting (value : Str) (activeDelimiter documentDelimiter : Char)
    (context : ECtx) : Bool :=
  value.isEmpty ||
  (match value.head? with
   | some c => jsWhitespaceChar c
   | none => false) ||
  (match value.getLast? with
   | some c => jsWhitespaceChar c
   | none => false) ||
  value = ("true").data || value = ("false").data || value = ("null").data ||
  numericLexeme value ||
  leadingZeroLexeme value ||
  value.any (fun c => c = ':' || c = '"' || c = '\\' ||
    c = '[' || c = ']' || c = obrace || c = cbrace) ||
  value.any (fun c => c = '\n' || c = '\r' || c = '\t') ||
  value = ['-'] ||
  (match value with
   | '-' :: c :: _ => !c.isDigit
   | _ => false) ||
  value.contains (match context with
    | .array => activeDelimiter
    | .object => documentDelimiter)

/-- A line the strict decoder's line preparation rejects: it begins
with a tab, or its leading-space count is positive and not a multiple
of the indent width. -/
def offendingLine (w : Nat) (l : Str) : Bool :=
  startsWithTab l || (countLeadingSpaces l > 0 && countLeadingSpaces l % w ≠ 0)

/-- Whether a line has a tab anywhere in its leading whitespace (the
spec's wording for the strict tab check). -/
def leadingWsHasTab (l : Str) : Bool :=
  (l.takeWhile jsWhitespaceChar).contains '\t'

/-- The prepared lines `parseLines` produces when no strict check
fires (content, leading-space count, 1-based number, blankness). -/
def buildLines : List Str → Nat → List ParsedLine
  | [], _ => []
  | l :: rest, i =>
    ⟨l, countLeadingSpaces l, i + 1, (jsTrim l).isEmpty⟩ :: buildLines rest (i + 1)

/-- Values of the restricted round-trip class of the amended C1:
primitives whose rendering survives the decoder unchanged — `null`,
booleans, integer-valued numbers, and strings free of `[` (a `[`
inside a value can make a later line match the decoder's unanchored
header test). -/
def flatSafeValue : Json → Bool
  | .null => true
  | .bool _ => true
  | .num q => q.den = 1
  | .str s => !s.contains '['
  | _ => false

/-- One encoded line of a flat object entry with a primitive value
(the inline cases of `encodeObject`). -/
def renderEntryLine (opts : EncOpts) (p : Str × Json) : Str :=
  encodeKey p.1 ++ [':', ' '] ++ encodeObjPrimValue opts p.2

/-- The spec's uniform-object test (§4.E), verbatim: all elements are
non-empty objects, they share exactly the same key set, and all values
are primitive. -/
def specUniform (arr : List Json) : Prop :=
  arr ≠ [] ∧
  ∃ ks : List Str, ks ≠ [] ∧
    ∀ e ∈ arr, ∃ o : Obj, e = Json.obj o ∧
      (∀ k, k ∈ o.map Prod.fst ↔ k ∈ ks) ∧
      ∀ p ∈ o, isPrimitiveValue p.2 = true

/-- The header line `encodeTabular` would emit for an array. -/
def tabularHeaderLine (opts : EncOpts) (arr : List Json) (key : Option Str)
    (depth : Nat) : Str :=
  let fields := sortedKeys (objsOfArr arr).headI
  let keyPart : Str := match key with
    | some k => encodeKey k
    | none => []
  indent depth opts.indent ++ keyPart ++ '[' :: renderNat arr.length ++
    delimSymStr opts.delimiter ++ [']'] ++
    obrace :: joinSep (inlineSep opts.delimiter) (fields.map encodeKey) ++ [cbrace, ':']

/-- One tabular row as `encodeTabular` emits it. -/
def tabularRowLine (opts : EncOpts) (fields : List Str) (depth : Nat) (o : Obj) : Str :=
  indent (depth + 1) opts.indent ++
    joinSep (inlineSep opts.delimiter)
      (fields.map (fun f => encodePrimitiveValue opts ((lookupKey o f).getD .null) opts.delimiter))

/-! ## Theorems -/

theorem exists_ok_map {e : Except DErr Str} {f : Str → Str} :
    (∃ u, e.map f = .ok u) ↔ ∃ v, e = .ok v := by
  cases e <;> simp [Except.map]

theorem unescapeString_pair (c c2 : Char) (rest : Str) (h : unescChar? c = some c2) :
    unescapeString ('\\' :: c :: rest) = (unescapeString rest).map (fun r => c2 :: r) := by
  simp only [unescapeString, h]

theorem unescapeString_cons_plain (c : Char) (rest : Str) (h : c ≠ '\\') :
    unescapeString (c :: rest) = (unescapeString rest).map (fun r => c :: r) := by
  cases rest with
  | nil =>
    conv_lhs => rw [unescapeString.eq_def]
    simp [h]
  | cons c2 r2 =>
    conv_lhs => rw [unescapeString.eq_def]
    simp [h]

theorem wellEscaped_cons_plain (c : Char) (rest : Str) (h : c ≠ '\\') :
    wellEscaped (c :: rest) = wellEscaped rest := by
  cases rest with
  | nil =>
    conv_lhs => rw [wellEscaped.eq_def]
    simp [h]
  | cons c2 r2 =>
    conv_lhs => rw [wellEscaped.eq_def]
    simp [h]

theorem escapeString_cons (c : Char) (rest : Str) :
    escapeString (c :: rest) = escChar c ++ escapeString rest := by
  simp [escapeString]

theorem unescape_escape (s : Str) : unescapeString (escapeString s) = .ok s := by
  induction s with
  | nil => rfl
  | cons c rest ih =>
    rw [escapeString_cons]
    by_cases h1 : c = '\\'
    · subst h1
      rw [show escChar '\\' = ['\\', '\\'] from rfl, List.cons_append, List.cons_append,
        List.nil_append, unescapeString_pair _ _ _ (show unescChar? '\\' = some '\\' from rfl),
        ih]
      rfl
    · by_cases h2 : c = '"'
      · subst h2
        rw [show escChar '"' = ['\\', '"'] from rfl, List.cons_append, List.cons_append,
          List.nil_append, unescapeString_pair _ _ _ (show unescChar? '"' = some '"' from rfl),
          ih]
        rfl
      · by_cases h3 : c = '\n'
        · subst h3
          rw [show escChar '\n' = ['\\', 'n'] from rfl, List.cons_append, List.cons_append,
            List.nil_append, unescapeString_pair _ _ _ (show unescChar? 'n' = some '\n' from rfl),
            ih]
          rfl
        · by_cases h4 : c = '\r'
          · subst h4
            rw [show escChar '\r' = ['\\', 'r'] from rfl, List.cons_append, List.cons_append,
              List.nil_append,
              unescapeString_pair _ _ _ (show unescChar? 'r' = some '\r' from rfl), ih]
            rfl
          · by_cases h5 : c = '\t'
            · subst h5
              rw [show escChar '\t' = ['\\', 't'] from rfl, List.cons_append, List.cons_append,
                List.nil_append,
                unescapeString_pair _ _ _ (show unescChar? 't' = some '\t' from rfl), ih]
              rfl
            · rw [show escChar c = [c] by simp [escChar, h1, h2, h3, h4, h5],
                List.cons_append, List.nil_append, unescapeString_cons_plain c _ h1, ih]
              rfl

theorem unescape_ok_iff_wellEscaped (t : Str) :
    (∃ u, unescapeString t = .ok u) ↔ wellEscaped t = true := by
  induction t using wellEscaped.induct with
  | case1 =>
    constructor
    · intro _
      rfl
    · intro _
      exact ⟨[], rfl⟩
  | case2 =>
    constructor
    · rintro ⟨u, hu⟩
      exact absurd hu (by simp [unescapeString])
    · intro h
      exact absurd h (by simp [wellEscaped])
  | case3 c rest ih =>
    rw [wellEscaped]
    cases hc : unescChar? c with
    | some c2 =>
      rw [unescapeString_pair c c2 rest hc]
      simp only [hc, Option.isSome_some, Bool.true_and]
      rw [← ih]
      exact exists_ok_map
    | none =>
      simp only [hc, Option.isSome_none, Bool.false_and]
      constructor
      · rintro ⟨u, hu⟩
        rw [show unescapeString ('\\' :: c :: rest) = .error .invalidEscape by
          simp only [unescapeString, hc]] at hu
        exact absurd hu (by simp)
      · intro h
        exact absurd h (by simp)
  | case4 c rest hne1 hne2 ih =>
    have hc : c ≠ '\\' := by
      intro hcc
      cases rest with
      | nil => exact hne1 hcc rfl
      | cons c1 r1 => exact hne2 c1 r1 hcc rfl
    rw [unescapeString_cons_plain c rest hc, wellEscaped_cons_plain c rest hc, ← ih]
    exact exists_ok_map

/-- C8: for every string `s`, `unescapeString (escapeString s) = s`;
and `unescapeString` accepts a string exactly when it is well escaped —
it raises the invalid-escape error only on inputs with a backslash
followed by a character outside the escape set or a trailing
backslash, hence never on an output of `escapeString`. -/
theorem C8_escape_unescape_round_trip :
    (∀ s : Str, unescapeString (escapeString s) = .ok s) ∧
    (∀ t : Str, (∃ u, unescapeString t = .ok u) ↔ wellEscaped t = true) :=
  ⟨unescape_escape, unescape_ok_iff_wellEscaped⟩

/-- C5 (corrected): the source's `needsQuoting` cascade equals the
spec's disjunction of conditions — with the leading/trailing
whitespace test taken over JavaScript's `\s` class (ASCII whitespace
plus NBSP, the Unicode space separators, the line separators and the
BOM), not over ASCII whitespace alone. -/
theorem C5_needsQuoting_iff_amended (value : Str) (a d : Char) (ctx : ECtx) :
    needsQuoting value a d ctx = amendedNeedsQuoting value a d ctx := by
  unfold needsQuoting amendedNeedsQuoting
  cases ctx <;> split_ifs <;> (try simp_all) <;> tauto

/-- C5 counterexample: on the one-character string U+00A0 (NBSP, a
non-ASCII whitespace character), `needsQuoting` returns `true`, while
the spec's listed conditions (ASCII whitespace) are all false. -/
theorem C5_counterexample :
    needsQuoting [Char.ofNat 160] ',' ',' ECtx.array = true ∧
    specNeedsQuoting [Char.ofNat 160] ',' ',' ECtx.array = false :=
  ⟨rfl, rfl⟩

theorem encodeStep_objEntries_nil (opts : EncOpts) (fuel depth : Nat) :
    encodeStep opts fuel (.objEntries [] depth) = [] := by
  cases fuel <;> rfl

/-- C9 (corrected): an object entry whose value is an empty object
contributes exactly one line — the bare `key:` line — and no body
lines; it is not omitted from the output. -/
theorem C9_empty_object_entry (opts : EncOpts) (fuel : Nat) (k : Str) (rest : Obj)
    (depth : Nat) :
    encodeStep opts (fuel + 1) (.objEntries ((k, Json.obj []) :: rest) depth) =
      (indent depth opts.indent ++ encodeKey k ++ [':']) ::
        encodeStep opts fuel (.objEntries rest depth) := by
  show ((indent depth opts.indent ++ encodeKey k ++ [':']) ::
      encodeStep opts fuel (.objEntries [] (depth + 1))) ++
      encodeStep opts fuel (.objEntries rest depth) = _
  rw [encodeStep_objEntries_nil]
  rfl

/-- C9 counterexample: encoding `{a: {}}` emits the line `a:` — one
line, not zero as the claim states. -/
theorem C9_counterexample :
    encode ⟨2, Delim.comma, false, none⟩ (Json.obj [(['a'], Json.obj [])]) = ['a', ':'] ∧
    (['a', ':'] : Str) ≠ ([] : Str) := by
  constructor
  · simp [encode, normalizeValue, jsonSize, encodeFuel]
    rfl
  · simp

/-- C7: the encoder is total on the (normalized) JSON model — `encode`
is a plain function with no error channel: for every value and options
it returns a string.  (In the embedding, termination is certified by
Lean accepting the definitions; the source's encoder likewise has no
throw site.) -/
theorem C7_encode_total (opts : EncOpts) (v : Json) : ∃ s : Str, encode opts v = s :=
  ⟨encode opts v, rfl⟩

theorem parseLinesGo_ok_of_clean (w : Nat) (e : Bool) :
    ∀ (ls : List Str) (i : Nat),
      (∀ l ∈ ls, offendingLine w l = false) →
      parseLinesGo ⟨w, true, e⟩ ls i = .ok (buildLines ls i) := by
  intro ls
  induction ls with
  | nil => intro i _; rfl
  | cons l rest ih =>
    intro i hclean
    have h1 := hclean l (by simp)
    simp only [offendingLine, Bool.or_eq_false_iff, Bool.and_eq_false_iff] at h1
    rw [parseLinesGo]
    rw [if_neg (by simp [h1.1])]
    rw [if_neg (by rcases h1.2 with h | h <;> simp_all)]
    rw [ih (i + 1) (fun l2 hl2 => hclean l2 (by simp [hl2]))]
    rfl

theorem parseLinesGo_first_err (w : Nat) (e : Bool) :
    ∀ (ls : List Str) (i j : Nat) (l : Str),
      ls.get? j = some l → offendingLine w l = true →
      (∀ k l2, k < j → ls.get? k = some l2 → offendingLine w l2 = false) →
      parseLinesGo ⟨w, true, e⟩ ls i =
        .error ((if startsWithTab l then DErr.tabsInIndent else DErr.indentNotMultiple) (i + j + 1)) := by
  intro ls
  induction ls with
  | nil => intro i j l hget; simp at hget
  | cons hd rest ih =>
    intro i j l hget hoff hfirst
    cases j with
    | zero =>
      simp only [List.get?_cons_zero, Option.some.injEq] at hget
      rw [← hget] at hoff ⊢
      rw [parseLinesGo]
      by_cases htab : startsWithTab hd = true
      · rw [if_pos (by simp [htab])]
        simp [htab]
      · have htab2 : startsWithTab hd = false := by
          simpa using htab
        rw [if_neg (by simp [htab2])]
        rw [if_pos (by
          simp only [offendingLine, htab2, Bool.false_or] at hoff
          simp_all)]
        simp [htab2]
    | succ j2 =>
      simp only [List.get?_cons_succ] at hget
      have hhd : offendingLine w hd = false := hfirst 0 hd (Nat.succ_pos j2) rfl
      simp only [offendingLine, Bool.or_eq_false_iff, Bool.and_eq_false_iff] at hhd
      rw [parseLinesGo]
      rw [if_neg (by simp [hhd.1])]
      rw [if_neg (by rcases hhd.2 with h | h <;> simp_all)]
      rw [ih (i + 1) j2 l hget hoff
        (fun k l2 hk hl2 => hfirst (k + 1) l2 (Nat.succ_lt_succ hk) hl2)]
      have : i + 1 + j2 + 1 = i + (j2 + 1) + 1 := by omega
      rw [this]
      rfl

theorem parseLinesGo_err_iff (w : Nat) (e : Bool) :
    ∀ (ls : List Str) (i : Nat),
      (∃ err, parseLinesGo ⟨w, true, e⟩ ls i = .error err) ↔
        ∃ l ∈ ls, offendingLine w l = true := by
  intro ls
  induction ls with
  | nil =>
    intro i
    simp [parseLinesGo]
  | cons hd rest ih =>
    intro i
    by_cases hoff : offendingLine w hd = true
    · constructor
      · intro _
        exact ⟨hd, by simp, hoff⟩
      · intro _
        refine ⟨(if startsWithTab hd then DErr.tabsInIndent else DErr.indentNotMultiple) (i + 0 + 1), ?_⟩
        exact parseLinesGo_first_err w e (hd :: rest) i 0 hd rfl hoff
          (fun k l2 hk => absurd hk (Nat.not_lt_zero k))
    · have hoff2 : offendingLine w hd = false := by simpa using hoff
      simp only [offendingLine, Bool.or_eq_false_iff, Bool.and_eq_false_iff] at hoff2
      rw [parseLinesGo]
      rw [if_neg (by simp [hoff2.1])]
      rw [if_neg (by rcases hoff2.2 with h | h <;> simp_all)]
      constructor
      · rintro ⟨err, herr⟩
        cases hrec : parseLinesGo ⟨w, true, e⟩ rest (i + 1) with
        | ok v => rw [hrec] at herr; exact absurd herr (by simp [Except.map])
        | error e2 =>
          obtain ⟨l, hl, hol⟩ := (ih (i + 1)).mp ⟨e2, hrec⟩
          exact ⟨l, by simp [hl], hol⟩
      · rintro ⟨l, hl, hol⟩
        simp only [List.mem_cons] at hl
        rcases hl with rfl | hl
        · exact absurd hol (by simpa using hoff)
        · obtain ⟨err, herr⟩ := (ih (i + 1)).mpr ⟨l, hl, hol⟩
          exact ⟨err, by rw [herr]; rfl⟩

/-- C6 (corrected): in strict mode, line preparation raises an error
carrying the 1-based number of the first offending line exactly when
some line *begins* with a tab, or has a positive leading-space count
that is not a multiple of the indent width.  A tab sitting after
spaces inside the leading whitespace is not detected (counterexample
below), so "tab anywhere in leading whitespace" is amended to "tab at
the start of the line". -/
theorem C6_strict_indentation_checks (w : Nat) (e : Bool) (text : Str) :
    ((∃ err, parseLines ⟨w, true, e⟩ text = .error err) ↔
      ∃ l ∈ splitChar '\n' text, offendingLine w l = true) ∧
    (∀ j l, (splitChar '\n' text).get? j = some l → offendingLine w l = true →
      (∀ k l2, k < j → (splitChar '\n' text).get? k = some l2 → offendingLine w l2 = false) →
      parseLines ⟨w, true, e⟩ text =
        .error ((if startsWithTab l then DErr.tabsInIndent else DErr.indentNotMultiple) (j + 1))) := by
  constructor
  · exact parseLinesGo_err_iff w e _ 0
  · intro j l hget hoff hfirst
    have h := parseLinesGo_first_err w e (splitChar '\n' text) 0 j l hget hoff hfirst
    simpa using h

/-- Witness for C6: on the input `\tx` with width 2, strict line
preparation reports a tab-indentation error on line 1. -/
theorem C6_strict_indentation_checks_witness :
    parseLines ⟨2, true, false⟩ ['\t', 'x'] = .error (DErr.tabsInIndent 1) := by
  have h := (C6_strict_indentation_checks 2 false ['\t', 'x']).2 0 ['\t', 'x'] rfl (by decide)
    (fun k l2 hk _ => absurd hk (Nat.not_lt_zero k))
  simpa [startsWithTab] using h

/-- C6 counterexample: under strict mode with width 2, the document
`a: 1\n  \tb: 2` decodes without error, although its second line has a
tab inside its leading whitespace (after two spaces). -/
theorem C6_counterexample :
    decode ⟨2, true, false⟩ ("a: 1\n  \tb: 2").data =
      .ok (Json.obj [(['a'], Json.num 1), (['b'], Json.num 2)]) ∧
    (splitChar '\n' ("a: 1\n  \tb: 2").data).get? 1 = some ("  \tb: 2").data ∧
    leadingWsHasTab ("  \tb: 2").data = true :=
  ⟨rfl, rfl, rfl⟩

theorem except_bind_ok {α β : Type} {e : Except DErr α} {f : α → Except DErr β} {b : β}
    (h : (e >>= f) = .ok b) : ∃ a, e = .ok a ∧ f a = .ok b := by
  cases e with
  | ok a => exact ⟨a, rfl, h⟩
  | error err => exact absurd h (by simp [Bind.bind, Except.bind])

theorem except_map_ok {α β : Type} {e : Except DErr α} {f : α → β} {b : β}
    (h : e.map f = .ok b) : ∃ a, e = .ok a ∧ f a = b := by
  cases e with
  | ok a =>
    refine ⟨a, rfl, ?_⟩
    simpa [Except.map] using h
  | error err => exact absurd h (by simp [Except.map])

theorem checkCount_ok_length {n ln : Nat} {values values2 : List Json}
    (h : checkCount true n ln values = .ok values2) :
    values2 = values ∧ values.length = n := by
  unfold checkCount at h
  by_cases hlen : values.length = n
  · simp only [hlen] at h ⊢
    simp_all
  · simp [hlen] at h

/-- C2 (corrected): in strict mode, for arrays whose header carries no
field list (inline and expanded non-tabular forms), any successful
parse returns exactly the declared number of elements — the final
`checkCount` guard raises `CountMismatch` otherwise.  Expanded tabular
arrays return before that guard and are exempt (counterexample below). -/
theorem C2_strict_count (ctx : DecCtx) (fuel i : Nat) (headerLine : ParsedLine)
    (hdr : HeaderInfo) (values : List Json)
    (hget : ctx.lines.get? i = some headerLine)
    (hhdr : parseArrayHeader headerLine = .ok hdr)
    (hfields : hdr.fields = none)
    (hstrict : ctx.strict = true)
    (hres : decodeStep ctx fuel (.arr i) = .ok (.vals values)) :
    values.length = hdr.length := by
  cases fuel with
  | zero => exact absurd hres (by simp [decodeStep])
  | succ fuel =>
    rw [decodeStep, hget] at hres
    simp only [Bind.bind] at hres
    rw [hhdr] at hres
    simp only [Except.bind] at hres
    cases hip : inlinePayload hdr.rawLine with
    | some valuesStr =>
      rw [hip] at hres
      obtain ⟨vs, hvs, hchk⟩ := except_bind_ok hres
      obtain ⟨vs2, hvs2, hveq⟩ := except_map_ok hchk
      rw [hstrict] at hvs2
      obtain ⟨heq, hlen⟩ := checkCount_ok_length hvs2
      injection hveq with hveq2
      rw [← hveq2, heq]
      exact hlen
    | none =>
      rw [hip, hfields] at hres
      obtain ⟨r, hr, hrest⟩ := except_bind_ok hres
      obtain ⟨vs, hvs, hchk⟩ := except_bind_ok hrest
      obtain ⟨vs2, hvs2, hveq⟩ := except_map_ok hchk
      rw [hstrict] at hvs2
      obtain ⟨heq, hlen⟩ := checkCount_ok_length hvs2
      injection hveq with hveq2
      rw [← hveq2, heq]
      exact hlen

/-- Witness for C2: the strict inline parse of `[2]: 1, 2` returns two
values, matching the declared count 2. -/
theorem C2_strict_count_witness :
    ([Json.num 1, Json.num 2].length =
      (HeaderInfo.mk none 2 Delim.comma none (("[2]: 1, 2").data) 1).length) :=
  C2_strict_count ⟨true, 2, [⟨("[2]: 1, 2").data, 0, 1, false⟩]⟩ 8 0
    ⟨("[2]: 1, 2").data, 0, 1, false⟩ ⟨none, 2, Delim.comma, none, ("[2]: 1, 2").data, 1⟩
    [Json.num 1, Json.num 2] rfl rfl rfl rfl rfl

/-- C2 counterexample: in strict mode the expanded tabular array
`[2]{a}:` followed by a single row decodes successfully to one element
although the header declares 2 — no `CountMismatch` is raised. -/
theorem C2_counterexample :
    decode ⟨2, true, false⟩ ("[2]\x7ba\x7d:\n  1").data =
      .ok (.arr [.obj [(['a'], .num 1)]]) ∧
    [Json.obj [(['a'], Json.num 1)]].length ≠ 2 ∧
    parseArrayHeader ⟨("[2]\x7ba\x7d:").data, 0, 1, false⟩ =
      .ok ⟨none, 2, Delim.comma, some [['a']], ("[2]\x7ba\x7d:").data, 1⟩ :=
  ⟨rfl, by decide, rfl⟩

theorem lookupKey_mapUpdate (k : Str) (v : Json) (o : Obj) :
    lookupKey (o.map (fun p => if p.1 = k then (k, v) else p)) k =
      if o.any (fun p => p.1 = k) then some v else none := by
  induction o with
  | nil => rfl
  | cons p rest ih =>
    by_cases hp : p.1 = k
    · simp only [List.map_cons, if_pos hp, List.any_cons, lookupKey]
      rw [List.find?_cons_of_pos _ (by simp)]
      simp [hp]
    · simp only [List.map_cons, if_neg hp, List.any_cons, lookupKey]
      rw [List.find?_cons_of_neg _ (by simp [hp])]
      simp only [lookupKey] at ih
      rw [ih]
      have hd : decide (p.1 = k) = false := by simpa using hp
      simp only [hd, Bool.false_or]

theorem lookupKey_mapUpdate_ne (k k2 : Str) (v : Json) (o : Obj) (hne : k2 ≠ k) :
    lookupKey (o.map (fun p => if p.1 = k then (k, v) else p)) k2 = lookupKey o k2 := by
  induction o with
  | nil => rfl
  | cons p rest ih =>
    by_cases hp : p.1 = k
    · simp only [List.map_cons, if_pos hp, lookupKey]
      rw [List.find?_cons_of_neg _ (by simp [Ne.symm hne]),
        List.find?_cons_of_neg _ (by simp [hp, Ne.symm hne])]
      simpa [lookupKey] using ih
    · simp only [List.map_cons, if_neg hp, lookupKey]
      by_cases hp2 : p.1 = k2
      · rw [List.find?_cons_of_pos _ (by simp [hp2]), List.find?_cons_of_pos _ (by simp [hp2])]
      · rw [List.find?_cons_of_neg _ (by simp [hp2]), List.find?_cons_of_neg _ (by simp [hp2])]
        simpa [lookupKey] using ih

theorem lookupKey_append_single (k : Str) (v : Json) (o : Obj)
    (h : o.any (fun p => p.1 = k) = false) :
    lookupKey (o ++ [(k, v)]) k = some v := by
  induction o with
  | nil => simp [lookupKey, List.find?]
  | cons p rest ih =>
    simp only [List.any_cons, Bool.or_eq_false_iff] at h
    simp only [List.cons_append, lookupKey]
    rw [List.find?_cons_of_neg _ (by simp_all)]
    simp only [lookupKey] at ih
    exact ih h.2

theorem lookupKey_append_single_ne (k k2 : Str) (v : Json) (o : Obj) (hne : k2 ≠ k) :
    lookupKey (o ++ [(k, v)]) k2 = lookupKey o k2 := by
  induction o with
  | nil => simp [lookupKey, List.find?, Ne.symm hne]
  | cons p rest ih =>
    simp only [List.cons_append, lookupKey]
    by_cases hp : p.1 = k2
    · rw [List.find?_cons_of_pos _ (by simp [hp]), List.find?_cons_of_pos _ (by simp [hp])]
    · rw [List.find?_cons_of_neg _ (by simp [hp]), List.find?_cons_of_neg _ (by simp [hp])]
      simpa [lookupKey] using ih

theorem lookupKey_setKey_self (k : Str) (v : Json) (o : Obj) :
    lookupKey (setKey o k v) k = some v := by
  unfold setKey
  by_cases h : o.any (fun p => p.1 = k) = true
  · rw [if_pos h, lookupKey_mapUpdate, if_pos h]
  · rw [if_neg h, lookupKey_append_single]
    exact Bool.not_eq_true _ ▸ h

theorem lookupKey_setKey_ne (k k2 : Str) (v : Json) (o : Obj) (hne : k2 ≠ k) :
    lookupKey (setKey o k v) k2 = lookupKey o k2 := by
  unfold setKey
  by_cases h : o.any (fun p => p.1 = k) = true
  · rw [if_pos h, lookupKey_mapUpdate_ne _ _ _ _ hne]
  · rw [if_neg h, lookupKey_append_single_ne _ _ _ _ hne]

theorem buildRowGo_preserve (tokens : List Str) :
    ∀ (fs : List Str) (i : Nat) (row0 row : Obj) (f : Str),
      buildRowGo tokens fs i row0 = .ok row → f ∉ fs →
      lookupKey row f = lookupKey row0 f := by
  intro fs
  induction fs with
  | nil =>
    intro i row0 row f h _
    simp only [buildRowGo] at h
    cases h
    rfl
  | cons f2 fs2 ih =>
    intro i row0 row f h hnot
    simp only [List.mem_cons, not_or] at hnot
    rw [buildRowGo] at h
    obtain ⟨v, hv, hrest⟩ := except_bind_ok h
    rw [ih (i + 1) _ row f hrest hnot.2, lookupKey_setKey_ne _ _ _ _ hnot.1]

theorem buildRowGo_keys (tokens : List Str) :
    ∀ (fs : List Str) (i : Nat) (row0 row : Obj),
      buildRowGo tokens fs i row0 = .ok row →
      (∀ f ∈ fs, ∃ v, lookupKey row f = some v) ∧
      (∀ f v, lookupKey row0 f = some v → ∃ v2, lookupKey row f = some v2) := by
  intro fs
  induction fs with
  | nil =>
    intro i row0 row h
    simp only [buildRowGo] at h
    cases h
    exact ⟨fun f hf => absurd hf (List.not_mem_nil f), fun f v hv => ⟨v, hv⟩⟩
  | cons f2 fs2 ih =>
    intro i row0 row h
    rw [buildRowGo] at h
    obtain ⟨v, hv, hrest⟩ := except_bind_ok h
    obtain ⟨hkeys, hpres⟩ := ih (i + 1) _ row hrest
    constructor
    · intro f hf
      rcases List.mem_cons.mp hf with rfl | hf2
      · exact hpres f v (lookupKey_setKey_self f v row0)
      · exact hkeys f hf2
    · intro f v2 hv2
      by_cases hfe : f = f2
      · subst hfe
        exact hpres f v (lookupKey_setKey_self f v row0)
      · exact hpres f v2 (by rw [lookupKey_setKey_ne _ _ _ _ hfe]; exact hv2)

theorem buildRowGo_null (tokens : List Str) :
    ∀ (fs : List Str) (i : Nat) (row0 row : Obj),
      buildRowGo tokens fs i row0 = .ok row → fs.Nodup →
      ∀ (j : Nat) (hj : j < fs.length), tokens.length ≤ i + j →
        lookupKey row (fs.get ⟨j, hj⟩) = some Json.null := by
  intro fs
  induction fs with
  | nil =>
    intro i row0 row h hnd j hj
    exact absurd hj (by simp)
  | cons f2 fs2 ih =>
    intro i row0 row h hnd j hj hlen
    rw [buildRowGo] at h
    obtain ⟨v, hv, hrest⟩ := except_bind_ok h
    rw [List.nodup_cons] at hnd
    cases j with
    | zero =>
      have hv0 : v = Json.null := by
        have hnone : tokens.get? i = none := by
          rw [List.get?_eq_none]
          omega
        rw [hnone] at hv
        cases hv
        rfl
      subst hv0
      simp only [List.get]
      rw [buildRowGo_preserve tokens fs2 (i + 1) _ row f2 hrest hnd.1]
      exact lookupKey_setKey_self f2 Json.null row0
    | succ j2 =>
      simp only [List.get]
      exact ih (i + 1) _ row hrest hnd.2 j2 (by simpa using hj) (by omega)

theorem tabLoop_rows (ctx : DecCtx) (fields : List Str) (delim : Char) (hlen base : Nat) :
    ∀ (fuel i : Nat) (rows0 rows : List Obj),
      tabLoop ctx fields delim hlen base fuel i rows0 = .ok rows →
      ∀ row ∈ rows, row ∈ rows0 ∨ ∃ tokens, buildRow fields tokens = .ok row := by
  intro fuel
  induction fuel with
  | zero =>
    intro i rows0 rows h
    exact absurd h (by simp [tabLoop])
  | succ fuel ih =>
    intro i rows0 rows h row hrow
    rw [tabLoop] at h
    split at h
    · cases h
      exact Or.inl hrow
    · rename_i line hline
      by_cases hfull : rows0.length ≥ hlen
      · rw [if_pos hfull] at h
        cases h
        exact Or.inl hrow
      · rw [if_neg hfull] at h
        by_cases hemp : line.isEmpty = true
        · rw [if_pos hemp] at h
          by_cases hstrict : ctx.strict = true
          · rw [if_pos hstrict] at h
            exact absurd h (by simp)
          · rw [if_neg hstrict] at h
            exact ih (i + 1) rows0 rows h row hrow
        · rw [if_neg hemp] at h
          by_cases hind : line.indent ≤ base
          · rw [if_pos hind] at h
            cases h
            exact Or.inl hrow
          · rw [if_neg hind] at h
            by_cases hcnt : (ctx.strict &&
                decide ((parseDelimitedTokens (jsTrim line.content) delim).length ≠ fields.length)) = true
            · rw [if_pos hcnt] at h
              exact absurd h (by simp)
            · rw [if_neg hcnt] at h
              obtain ⟨row1, hrow1, hrest⟩ := except_bind_ok h
              rcases ih (i + 1) _ rows hrest row hrow with hmem | hex
              · rcases List.mem_append.mp hmem with hm | hm
                · exact Or.inl hm
                · rcases List.mem_singleton.mp hm with rfl
                  exact Or.inr ⟨parseDelimitedTokens (jsTrim line.content) delim, hrow1⟩
              · exact Or.inr hex

/-- C10: every row a tabular-array parse produces comes from `buildRow`
applied to its line's tokens; `buildRow` binds every declared field in
every row, and (for distinct fields) a row whose line tokenizes to
fewer tokens than the declared field count binds each missing trailing
field to `null` rather than omitting it.  (In strict mode short rows
raise a field-count error before `buildRow`; in lax mode the null
filling below is reachable.) -/
theorem C10_tabular_null_fill :
    (∀ (ctx : DecCtx) (fields : List Str) (delim : Char) (hlen base fuel i : Nat)
      (rows : List Obj),
      tabLoop ctx fields delim hlen base fuel i [] = .ok rows →
      ∀ row ∈ rows, ∃ tokens, buildRow fields tokens = .ok row) ∧
    (∀ (fields tokens : List Str) (row : Obj),
      buildRow fields tokens = .ok row →
      (∀ f ∈ fields, ∃ v, lookupKey row f = some v) ∧
      (fields.Nodup → ∀ (j : Nat) (hj : j < fields.length), tokens.length ≤ j →
        lookupKey row (fields.get ⟨j, hj⟩) = some Json.null)) := by
  constructor
  · intro ctx fields delim hlen base fuel i rows h row hrow
    rcases tabLoop_rows ctx fields delim hlen base fuel i [] rows h row hrow with hmem | hex
    · exact absurd hmem (List.not_mem_nil row)
    · exact hex
  · intro fields tokens row h
    refine ⟨(buildRowGo_keys tokens fields 0 [] row h).1, fun hnd j hj hlen => ?_⟩
    exact buildRowGo_null tokens fields 0 [] row h hnd j hj (by omega)

/-- Witness for C10: with fields `a, b` and the single-token row `1`,
the built row binds `a` to 1 and the missing trailing field `b` to
`null`. -/
theorem C10_tabular_null_fill_witness :
    lookupKey [(['a'], Json.num 1), (['b'], Json.null)] ['b'] = some Json.null :=
  (C10_tabular_null_fill.2 [['a'], ['b']] [['1']]
    [(['a'], Json.num 1), (['b'], Json.null)] rfl).2 (by decide) 1 (by decide) (by decide)

theorem except_bind_ok_eq {α β : Type} (a : α) (f : α → Except DErr β) :
    (Except.ok a >>= f) = f a := rfl

theorem parseTokenValue_not_obj (t : Str) (entries : Obj) :
    parseTokenValue t ≠ .ok (.obj entries) := by
  intro hc
  rw [parseTokenValue.eq_def] at hc
  simp only [] at hc
  split_ifs at hc with h
  · obtain ⟨u, hu, he⟩ := except_map_ok hc
    exact absurd he (by simp)
  · rw [parseToken.eq_def] at hc
    split_ifs at hc <;> simp_all

/-- C4 (corrected): when the first non-blank line is not an array
header, the root is classified Primitive exactly when the document has
one non-blank line and that line contains no colon character *at all*
(`includes(':')` in the source — a quoted colon also counts, unlike
the claim's unquoted-colon reading); a Primitive root decodes to the
single token of that line. -/
theorem C4_root_classification (opts : DecOpts) (text : Str) (ls : List ParsedLine)
    (first : ParsedLine) (rest : List ParsedLine)
    (hpl : parseLines opts text = .ok ls)
    (hne : ls.filter (fun l => !l.isEmpty) = first :: rest)
    (hnh : matchesHeaderStart (jsTrim first.content) = false) :
    (determineRootForm (first :: rest) = .primitive ↔
      rest = [] ∧ (jsTrim first.content).contains ':' = false) ∧
    (determineRootForm (first :: rest) = .primitive →
      decode opts text = parseTokenValue (jsTrim first.content)) := by
  constructor
  · rw [determineRootForm]
    simp only [hnh, Bool.false_eq_true, if_false]
    constructor
    · intro h
      by_cases hlen : (first :: rest).length = 1 ∧ !(jsTrim first.content).contains ':'
      · refine ⟨?_, by simpa using hlen.2⟩
        cases rest with
        | nil => rfl
        | cons a b => simp at hlen
      · rw [if_neg (by simpa using hlen)] at h
        exact absurd h (by simp)
    · rintro ⟨rfl, hcol⟩
      rw [if_pos (by simp_all)]
  · intro hprim
    unfold decode
    rw [hpl, except_bind_ok_eq]
    simp only []
    rw [hne, hprim]
    show (parseTokenValue (jsTrim first.content) >>= fun result =>
      match result with
      | Json.obj entries =>
        if opts.expandPaths = true then
          Except.map Json.obj (expandEntries opts.strict (2 * (first :: rest).length + 8) [] entries)
        else Except.ok result
      | _ => Except.ok result) = parseTokenValue (jsTrim first.content)
    cases hptv : parseTokenValue (jsTrim first.content) with
    | error e => rfl
    | ok v =>
      rw [except_bind_ok_eq]
      cases v with
      | obj entries => exact absurd hptv (parseTokenValue_not_obj _ _)
      | null => rfl
      | bool b => rfl
      | num q => rfl
      | str s2 => rfl
      | arr l => rfl

/-- Witness for C4: the single-line document `hello` decodes as the
primitive token `hello`. -/
theorem C4_root_classification_witness :
    decode ⟨2, false, false⟩ ("hello").data = parseTokenValue (jsTrim (("hello").data)) :=
  (C4_root_classification ⟨2, false, false⟩ ("hello").data
    [⟨("hello").data, 0, 1, false⟩] ⟨("hello").data, 0, 1, false⟩ [] rfl rfl rfl).2 rfl

/-- C4 counterexample: the single-line document `"a:b"` has no
*unquoted* colon, so the claim classifies it Primitive with value the
string `a:b`; the source tests `includes(':')`, classifies it as an
Object root, and decodes it to the empty object. -/
theorem C4_counterexample :
    decode ⟨2, false, false⟩ ['"', 'a', ':', 'b', '"'] = .ok (Json.obj []) ∧
    parseLines ⟨2, false, false⟩ ['"', 'a', ':', 'b', '"'] =
      .ok [⟨['"', 'a', ':', 'b', '"'], 0, 1, false⟩] ∧
    findUnquotedColon (jsTrim ['"', 'a', ':', 'b', '"']) = none ∧
    matchesHeaderStart (jsTrim ['"', 'a', ':', 'b', '"']) = false ∧
    parseTokenValue ['"', 'a', ':', 'b', '"'] = .ok (Json.str ['a', ':', 'b']) ∧
    Json.obj [] ≠ Json.str ['a', ':', 'b'] :=
  ⟨rfl, rfl, rfl, rfl, rfl, fun h => Json.noConfusion h⟩
theorem strLe_nil (a : Str) : strLe [] a = true := by
  cases a <;> rfl

theorem strLe_total : ∀ a b : Str, strLe a b = true ∨ strLe b a = true := by
  intro a
  induction a with
  | nil => intro b; exact Or.inl (strLe_nil b)
  | cons c as ih =>
    intro b
    cases b with
    | nil => exact Or.inr (strLe_nil _)
    | cons d bs =>
      rw [strLe, strLe]
      rcases Nat.lt_trichotomy c.toNat d.toNat with h | h | h
      · left
        rw [if_pos h]
      · rw [if_neg (by omega), if_neg (by omega), if_neg (by omega), if_neg (by omega)]
        exact ih bs
      · right
        rw [if_pos h]

theorem strLe_trans : ∀ a b c : Str, strLe a b = true → strLe b c = true → strLe a c = true := by
  intro a
  induction a with
  | nil => intro b c _ _; exact strLe_nil c
  | cons x as ih =>
    intro b c hab hbc
    cases b with
    | nil => rw [strLe] at hab; exact absurd hab (by simp)
    | cons y bs =>
      cases c with
      | nil => rw [strLe] at hbc; exact absurd hbc (by simp)
      | cons z cs =>
        rw [strLe] at hab hbc ⊢
        rcases Nat.lt_trichotomy x.toNat y.toNat with h1 | h1 | h1 <;>
          rcases Nat.lt_trichotomy y.toNat z.toNat with h2 | h2 | h2
        all_goals first
          | (rw [if_pos (by omega)])
          | (rw [if_neg (by omega), if_neg (by omega)]
             rw [if_neg (by omega), if_neg (by omega)] at hab
             rw [if_neg (by omega), if_neg (by omega)] at hbc
             exact ih bs cs hab hbc)
          | (exfalso
             first
               | (rw [if_neg (by omega), if_pos (by omega)] at hab
                  exact absurd hab (by simp))
               | (rw [if_neg (by omega), if_pos (by omega)] at hbc
                  exact absurd hbc (by simp)))

theorem strLe_antisymm : ∀ a b : Str, strLe a b = true → strLe b a = true → a = b := by
  intro a
  induction a with
  | nil =>
    intro b _ hba
    cases b with
    | nil => rfl
    | cons d bs => rw [strLe] at hba; exact absurd hba (by simp)
  | cons c as ih =>
    intro b hab hba
    cases b with
    | nil => rw [strLe] at hab; exact absurd hab (by simp)
    | cons d bs =>
      rw [strLe] at hab hba
      rcases Nat.lt_trichotomy c.toNat d.toNat with h | h | h
      · rw [if_neg (by omega), if_pos (by omega)] at hba
        exact absurd hba (by simp)
      · have hc : c = d := by
          rw [← Char.ofNat_toNat c, ← Char.ofNat_toNat d, h]
        subst hc
        rw [if_neg (by omega), if_neg (by omega)] at hab
        rw [if_neg (by omega), if_neg (by omega)] at hba
        rw [ih bs hab hba]
      · rw [if_neg (by omega), if_pos (by omega)] at hab
        exact absurd hab (by simp)

theorem insertSorted_perm (x : Str) (l : List Str) :
    List.Perm (insertSorted x l) (x :: l) := by
  induction l with
  | nil => rfl
  | cons y ys ih =>
    rw [insertSorted]
    by_cases h : strLe x y = true
    · rw [if_pos h]
    · rw [if_neg h]
      exact List.Perm.trans (List.Perm.cons y ih) (List.Perm.swap x y ys)

theorem sortStrs_perm (l : List Str) : List.Perm (sortStrs l) l := by
  induction l with
  | nil => rfl
  | cons x xs ih =>
    rw [sortStrs]
    exact List.Perm.trans (insertSorted_perm x (sortStrs xs)) (List.Perm.cons x ih)

theorem insertSorted_sorted (x : Str) (l : List Str)
    (h : List.Sorted (fun a b => strLe a b = true) l) :
    List.Sorted (fun a b => strLe a b = true) (insertSorted x l) := by
  induction l with
  | nil => simp [insertSorted]
  | cons y ys ih =>
    rw [insertSorted]
    by_cases hxy : strLe x y = true
    · rw [if_pos hxy]
      rw [List.sorted_cons]
      refine ⟨fun b hb => ?_, h⟩
      rcases List.mem_cons.mp hb with rfl | hb2
      · exact hxy
      · exact strLe_trans x y b hxy ((List.sorted_cons.mp h).1 b hb2)
    · rw [if_neg hxy]
      rw [List.sorted_cons] at h ⊢
      refine ⟨fun b hb => ?_, ih h.2⟩
      rcases (insertSorted_perm x ys).mem_iff.mp hb with hb2
      rcases List.mem_cons.mp hb2 with rfl | hb3
      · rcases strLe_total y b with hyb | hby
        · exact hyb
        · exact absurd hby hxy
      · exact h.1 b hb3

theorem sortStrs_sorted (l : List Str) :
    List.Sorted (fun a b => strLe a b = true) (sortStrs l) := by
  induction l with
  | nil => simp [sortStrs]
  | cons x xs ih => exact insertSorted_sorted x (sortStrs xs) ih

instance : IsAntisymm Str (fun a b => strLe a b = true) :=
  ⟨fun a b hab hba => strLe_antisymm a b hab hba⟩

theorem sortStrs_eq_of_perm (l1 l2 : List Str) (h : List.Perm l1 l2) :
    sortStrs l1 = sortStrs l2 := by
  refine List.eq_of_perm_of_sorted ?_ (sortStrs_sorted l1) (sortStrs_sorted l2)
  exact List.Perm.trans (sortStrs_perm l1) (List.Perm.trans h (sortStrs_perm l2).symm)

theorem sortedKeys_eq_of_same_mem (o1 o2 : Obj)
    (h1 : (o1.map Prod.fst).Nodup) (h2 : (o2.map Prod.fst).Nodup)
    (h : ∀ k, k ∈ o1.map Prod.fst ↔ k ∈ o2.map Prod.fst) :
    sortedKeys o1 = sortedKeys o2 :=
  sortStrs_eq_of_perm _ _ ((List.perm_ext_iff_of_nodup h1 h2).mpr h)

theorem mem_sortedKeys (o : Obj) (k : Str) :
    k ∈ sortedKeys o ↔ k ∈ o.map Prod.fst :=
  (sortStrs_perm (o.map Prod.fst)).mem_iff

theorem isUniformArray_eq_true_iff (arr : List Json) :
    isUniformArray arr = true ↔
      arr.isEmpty = false ∧ arr.all Json.isPlainObject = true ∧
      (sortedKeys (objsOfArr arr).headI).isEmpty = false ∧
      (objsOfArr arr).all (fun o => sortedKeys o = sortedKeys (objsOfArr arr).headI) = true ∧
      (objsOfArr arr).all (fun o => o.all (fun p => isPrimitiveValue p.2)) = true := by
  unfold isUniformArray objsOfArr
  dsimp only
  split_ifs with h1 h2 h3 h4 <;> simp_all

theorem isUniformArray_iff_specUniform (arr : List Json)
    (hnd : ∀ o : Obj, Json.obj o ∈ arr → (o.map Prod.fst).Nodup) :
    isUniformArray arr = true ↔ specUniform arr := by
  rw [isUniformArray_eq_true_iff]
  constructor
  · rintro ⟨h1, h2, h3, h4, h5⟩
    refine ⟨by simpa using h1, sortedKeys (objsOfArr arr).headI, by simpa using h3, ?_⟩
    intro e he
    have hobj : e.isPlainObject = true := by
      rw [List.all_eq_true] at h2
      exact h2 e he
    cases e with
    | obj o =>
      refine ⟨o, rfl, ?_, ?_⟩
      · intro k
        have hkeys : sortedKeys o = sortedKeys (objsOfArr arr).headI := by
          rw [List.all_eq_true] at h4
          have hm : o ∈ objsOfArr arr := by
            unfold objsOfArr
            exact List.mem_map.mpr ⟨Json.obj o, he, rfl⟩
          simpa using h4 o hm
        rw [← mem_sortedKeys, hkeys]
      · intro p hp
        rw [List.all_eq_true] at h5
        have hm : o ∈ objsOfArr arr := by
          unfold objsOfArr
          exact List.mem_map.mpr ⟨Json.obj o, he, rfl⟩
        have := h5 o hm
        rw [List.all_eq_true] at this
        exact this p hp
    | null => exact absurd hobj (by simp [Json.isPlainObject])
    | bool b => exact absurd hobj (by simp [Json.isPlainObject])
    | num q => exact absurd hobj (by simp [Json.isPlainObject])
    | str s => exact absurd hobj (by simp [Json.isPlainObject])
    | arr l => exact absurd hobj (by simp [Json.isPlainObject])
  · rintro ⟨hne, ks, hks, hall⟩
    obtain ⟨e0, rest, rfl⟩ : ∃ e0 rest, arr = e0 :: rest := by
      cases arr with
      | nil => exact absurd rfl hne
      | cons a b => exact ⟨a, b, rfl⟩
    obtain ⟨o0, he0, hiff0, hprim0⟩ := hall e0 (by simp)
    subst he0
    have hhead : (objsOfArr (Json.obj o0 :: rest)).headI = o0 := by
      unfold objsOfArr
      simp
    obtain ⟨k0, hk0⟩ : ∃ k0, k0 ∈ ks := by
      cases ks with
      | nil => exact absurd rfl hks
      | cons a b => exact ⟨a, by simp⟩
    refine ⟨by simp, ?_, ?_, ?_, ?_⟩
    · rw [List.all_eq_true]
      intro e he
      obtain ⟨o, rfl, _, _⟩ := hall e he
      rfl
    · rw [hhead]
      have hk0m : k0 ∈ sortedKeys o0 := (mem_sortedKeys o0 k0).mpr ((hiff0 k0).mpr hk0)
      cases hsk : sortedKeys o0 with
      | nil => rw [hsk] at hk0m; exact absurd hk0m (List.not_mem_nil k0)
      | cons a b => simp
    · rw [List.all_eq_true]
      intro o hm
      unfold objsOfArr at hm
      obtain ⟨e, he, hoe⟩ := List.mem_map.mp hm
      obtain ⟨o2, rfl, hiff2, _⟩ := hall e he
      have ho2 : o = o2 := by simp at hoe; exact hoe.symm
      subst ho2
      rw [hhead]
      have heq : sortedKeys o = sortedKeys o0 := by
        refine sortedKeys_eq_of_same_mem o o0 (hnd o he) (hnd o0 (by simp)) ?_
        intro k
        rw [hiff2 k, hiff0 k]
      simp [heq]
    · rw [List.all_eq_true]
      intro o hm
      unfold objsOfArr at hm
      obtain ⟨e, he, hoe⟩ := List.mem_map.mp hm
      obtain ⟨o2, rfl, _, hprim2⟩ := hall e he
      have ho2 : o = o2 := by simp at hoe; exact hoe.symm
      subst ho2
      rw [List.all_eq_true]
      intro p hp
      exact hprim2 p hp

theorem append_cons_ne (P : Str) (a b : Char) (t1 t2 : Str) (h : a ≠ b) :
    P ++ a :: t1 ≠ P ++ b :: t2 := by
  intro hc
  have h2 := List.append_cancel_left hc
  injection h2 with h3 h4
  exact h h3

theorem arrayHeaderStr_decomp (opts : EncOpts) (key : Option Str) (n depth : Nat) :
    arrayHeaderStr opts key n depth =
      (indent depth opts.indent ++ (match key with
        | some k => encodeKey k
        | none => []) ++ '[' :: renderNat n ++ delimSymStr opts.delimiter ++ [']']) ++ [':'] := by
  unfold arrayHeaderStr
  simp [List.append_assoc]

theorem tabularHeaderLine_decomp (opts : EncOpts) (arr : List Json) (key : Option Str)
    (depth : Nat) :
    tabularHeaderLine opts arr key depth =
      (indent depth opts.indent ++ (match key with
        | some k => encodeKey k
        | none => []) ++ '[' :: renderNat arr.length ++ delimSymStr opts.delimiter ++ [']']) ++
        obrace :: (joinSep (inlineSep opts.delimiter)
          ((sortedKeys (objsOfArr arr).headI).map encodeKey) ++ [cbrace, ':']) := by
  unfold tabularHeaderLine
  simp [List.append_assoc]

theorem encodeStep_tabular (opts : EncOpts) (arr : List Json) (key : Option Str)
    (depth fuel : Nat) (h : isUniformArray arr = true) :
    encodeStep opts (fuel + 1) (.array arr key depth) =
      tabularHeaderLine opts arr key depth ::
        (objsOfArr arr).map (tabularRowLine opts (sortedKeys (objsOfArr arr).headI) depth) := by
  rw [encodeStep, if_pos h]
  unfold encodeTabular tabularHeaderLine tabularRowLine
  simp [objsOfArr]

theorem encodeStep_not_tabular_head (opts : EncOpts) (arr : List Json) (key : Option Str)
    (depth fuel : Nat) (h : isUniformArray arr = false) :
    (encodeStep opts (fuel + 1) (.array arr key depth)).head? ≠
      some (tabularHeaderLine opts arr key depth) := by
  have hP : ∀ t : Str,
      (arrayHeaderStr opts key arr.length depth ++ t) ≠
        tabularHeaderLine opts arr key depth := by
    intro t
    rw [arrayHeaderStr_decomp, tabularHeaderLine_decomp, List.append_assoc]
    exact append_cons_ne _ ':' obrace _ _ (by decide)
  rw [encodeStep, if_neg (by simp [h])]
  by_cases hp : isArrayOfPrimitives arr = true
  · rw [if_pos hp]
    unfold encodePrimitiveArray
    dsimp only
    split
    · simp only [List.head?_cons]
      intro hc
      exact hP _ (Option.some_inj.mp hc)
    · simp only [List.head?_cons]
      intro hc
      exact hP [] (by simpa using Option.some_inj.mp hc)
  · rw [if_neg hp]
    simp only [List.head?_cons]
    intro hc
    exact hP [] (by simpa using Option.some_inj.mp hc)

/-- C3 (confirmed): an array passes the source's `isUniformArray` test
exactly when every element is a non-empty plain object, all elements
share the same key set, and every value is primitive (null, boolean,
number, string); under that test the encoder emits the tabular header
line followed by exactly one row per element, the field list of the
header is sorted in code-point order and is a permutation of every
element's key set, and the rows list the field values in that sorted
order joined by the document delimiter (the shape of
`tabularRowLine`); an array failing the test never starts with the
tabular header line.  The hypothesis that each object's keys are
distinct mirrors JavaScript object keys. -/
theorem C3_uniform_tabular (opts : EncOpts) (arr : List Json) (key : Option Str)
    (depth fuel : Nat)
    (hnd : ∀ o : Obj, Json.obj o ∈ arr → (o.map Prod.fst).Nodup) :
    (isUniformArray arr = true ↔ specUniform arr) ∧
    (specUniform arr →
      encodeStep opts (fuel + 1) (.array arr key depth) =
        tabularHeaderLine opts arr key depth ::
          (objsOfArr arr).map
            (tabularRowLine opts (sortedKeys (objsOfArr arr).headI) depth) ∧
      List.Sorted (fun a b => strLe a b = true) (sortedKeys (objsOfArr arr).headI) ∧
      ∀ o : Obj, Json.obj o ∈ arr →
        List.Perm (sortedKeys (objsOfArr arr).headI) (o.map Prod.fst)) ∧
    (¬ specUniform arr →
      (encodeStep opts (fuel + 1) (.array arr key depth)).head? ≠
        some (tabularHeaderLine opts arr key depth)) := by
  have hiff := isUniformArray_iff_specUniform arr hnd
  refine ⟨hiff, ?_, ?_⟩
  · intro hs
    have hu : isUniformArray arr = true := hiff.mpr hs
    refine ⟨encodeStep_tabular opts arr key depth fuel hu, ?_, ?_⟩
    · unfold sortedKeys
      exact sortStrs_sorted _
    · intro o ho
      have h4 := ((isUniformArray_eq_true_iff arr).mp hu).2.2.2.1
      rw [List.all_eq_true] at h4
      have hm : o ∈ objsOfArr arr := by
        unfold objsOfArr
        exact List.mem_map.mpr ⟨Json.obj o, ho, rfl⟩
      have heq : sortedKeys o = sortedKeys (objsOfArr arr).headI := by
        simpa using h4 o hm
      rw [← heq]
      unfold sortedKeys
      simpa using sortStrs_perm (o.map (fun p => p.1))
  · intro hs
    have hf : isUniformArray arr = false := by
      cases hb : isUniformArray arr
      · rfl
      · exact absurd (hiff.mp hb) hs
    exact encodeStep_not_tabular_head opts arr key depth fuel hf

theorem C3_uniform_tabular_witness :
    encodeStep ⟨2, Delim.comma, false, none⟩ 5
        (EncCall.array
          [Json.obj [(['b'], Json.num 1), (['a'], Json.str ['x'])],
           Json.obj [(['a'], Json.null), (['b'], Json.bool true)]] none 0) =
      tabularHeaderLine ⟨2, Delim.comma, false, none⟩
          [Json.obj [(['b'], Json.num 1), (['a'], Json.str ['x'])],
           Json.obj [(['a'], Json.null), (['b'], Json.bool true)]] none 0 ::
        (objsOfArr
          [Json.obj [(['b'], Json.num 1), (['a'], Json.str ['x'])],
           Json.obj [(['a'], Json.null), (['b'], Json.bool true)]]).map
          (tabularRowLine ⟨2, Delim.comma, false, none⟩
            (sortedKeys (objsOfArr
              [Json.obj [(['b'], Json.num 1), (['a'], Json.str ['x'])],
               Json.obj [(['a'], Json.null), (['b'], Json.bool true)]]).headI) 0) := by
  have hnd : ∀ o : Obj, Json.obj o ∈
      ([Json.obj [(['b'], Json.num 1), (['a'], Json.str ['x'])],
        Json.obj [(['a'], Json.null), (['b'], Json.bool true)]] : List Json) →
      (o.map Prod.fst).Nodup := by
    intro o ho
    simp only [List.mem_cons, List.not_mem_nil, or_false] at ho
    rcases ho with h | h <;> injection h with h2 <;> subst h2 <;> decide
  have hthm := C3_uniform_tabular ⟨2, Delim.comma, false, none⟩
    [Json.obj [(['b'], Json.num 1), (['a'], Json.str ['x'])],
     Json.obj [(['a'], Json.null), (['b'], Json.bool true)]] none 0 4 hnd
  exact (hthm.2.1 (hthm.1.mp (by decide))).1

theorem jsWs_toNat (c : Char) (h : jsWhitespaceChar c = true) :
    c.toNat = 32 ∨ c.toNat = 9 ∨ c.toNat = 10 ∨ c.toNat = 13 ∨
    c.toNat = 11 ∨ c.toNat = 12 ∨ c.toNat = 0xA0 ∨ c.toNat = 0x1680 ∨
    (0x2000 ≤ c.toNat ∧ c.toNat ≤ 0x200A) ∨ c.toNat = 0x2028 ∨
    c.toNat = 0x2029 ∨ c.toNat = 0x202F ∨ c.toNat = 0x205F ∨
    c.toNat = 0x3000 ∨ c.toNat = 0xFEFF := by
  unfold jsWhitespaceChar at h
  simp only [Bool.or_eq_true, decide_eq_true_eq, Bool.and_eq_true] at h
  rcases h with ((((((((((((((h | h) | h) | h) | h) | h) | h) | h) | h) | h) | h) | h) | h) | h) | h) <;>
    first
      | (subst h; decide)
      | tauto

theorem identTail_toNat (c : Char) (h : (isIdentTailChar c || c = '.') = true) :
    c.toNat = 46 ∨ c.toNat = 95 ∨ (48 ≤ c.toNat ∧ c.toNat ≤ 57) ∨
    (65 ≤ c.toNat ∧ c.toNat ≤ 90) ∨ (97 ≤ c.toNat ∧ c.toNat ≤ 122) := by
  unfold isIdentTailChar isIdentLeadChar at h
  simp only [Bool.or_eq_true, Bool.and_eq_true, decide_eq_true_eq, Char.isDigit] at h
  rcases h with (((⟨h1, h2⟩ | ⟨h1, h2⟩) | h) | ⟨h1, h2⟩) | h
  · right; right; right; left
    exact ⟨h1, h2⟩
  · right; right; right; right
    exact ⟨h1, h2⟩
  · subst h; decide
  · right; right; left
    exact ⟨h1, h2⟩
  · subst h; decide

theorem keyChar_facts (c : Char) (h : (isIdentTailChar c || c = '.') = true) :
    jsWhitespaceChar c = false ∧ c ≠ ':' ∧ c ≠ '"' ∧ c ≠ '\\' ∧ c ≠ '[' ∧ c ≠ '\n' := by
  have ht := identTail_toNat c h
  refine ⟨?_, ?_, ?_, ?_, ?_, ?_⟩
  · cases hw : jsWhitespaceChar c
    · rfl
    · exfalso
      have := jsWs_toNat c hw
      omega
  all_goals (intro h2; subst h2; revert ht; decide)

theorem identLead_tail (c : Char) (h : isIdentLeadChar c = true) :
    (isIdentTailChar c || c = '.') = true := by
  unfold isIdentTailChar
  simp [h]

theorem validKey_chars (k : Str) (h : isValidKey k = true) :
    k ≠ [] ∧ ∀ c ∈ k, (isIdentTailChar c || c = '.') = true := by
  cases k with
  | nil => exact absurd h (by simp [isValidKey])
  | cons c rest =>
    unfold isValidKey at h
    simp only [Bool.and_eq_true, List.all_eq_true] at h
    refine ⟨by simp, ?_⟩
    intro c2 hc2
    rcases List.mem_cons.mp hc2 with h2 | h2
    · subst h2
      exact identLead_tail c2 h.1
    · have := h.2 c2 h2
      simpa using this

theorem validKey_head (k : Str) (h : isValidKey k = true) :
    ∀ c, k.head? = some c → isIdentLeadChar c = true := by
  cases k with
  | nil => exact absurd h (by simp [isValidKey])
  | cons c rest =>
    intro c2 hc2
    injection hc2 with hc2
    subst hc2
    unfold isValidKey at h
    simp only [Bool.and_eq_true] at h
    exact h.1

theorem dropWhile_eq_self_of_head {p : Char → Bool} (l : Str)
    (h : ∀ c, l.head? = some c → p c = false) : l.dropWhile p = l := by
  cases l with
  | nil => rfl
  | cons c rest =>
    rw [List.dropWhile_cons_of_neg]
    simp [h c rfl]

theorem jsTrim_eq_self (s : Str)
    (h1 : ∀ c, s.head? = some c → jsWhitespaceChar c = false)
    (h2 : ∀ c, s.getLast? = some c → jsWhitespaceChar c = false) : jsTrim s = s := by
  unfold jsTrim
  rw [dropWhile_eq_self_of_head s h1]
  rw [dropWhile_eq_self_of_head s.reverse (fun c hc => h2 c (by rwa [← List.head?_reverse]))]
  exact List.reverse_reverse s

theorem jsTrim_space_cons (s : Str) : jsTrim (' ' :: s) = jsTrim s := by
  unfold jsTrim
  rw [List.dropWhile_cons_of_pos (by decide)]

theorem digitChar_toNat (d : Nat) (h : d < 10) : (digitChar d).toNat = 48 + d := by
  interval_cases d <;> decide

theorem digitChar_isDigit (d : Nat) (h : d < 10) : (digitChar d).isDigit = true := by
  interval_cases d <;> decide

theorem digitChar_ne_zero (d : Nat) (h1 : d < 10) (h2 : d ≠ 0) : digitChar d ≠ '0' := by
  interval_cases d <;> first | omega | decide

theorem natDigitsAux_zero (fuel : Nat) : natDigitsAux fuel 0 = [] := by
  cases fuel <;> simp [natDigitsAux]

theorem natDigitsAux_ne_nil : ∀ (fuel n : Nat), n ≠ 0 → n ≤ fuel →
    natDigitsAux fuel n ≠ [] := by
  intro fuel
  cases fuel with
  | zero => intro n h1 h2; omega
  | succ f =>
    intro n h1 _
    rw [natDigitsAux, if_neg h1]
    simp

theorem natDigitsAux_digits : ∀ (fuel n : Nat) (c : Char),
    c ∈ natDigitsAux fuel n → c.isDigit = true := by
  intro fuel
  induction fuel with
  | zero => intro n c hc; simp [natDigitsAux] at hc
  | succ f ih =>
    intro n c hc
    rw [natDigitsAux] at hc
    by_cases h : n = 0
    · rw [if_pos h] at hc
      simp at hc
    · rw [if_neg h] at hc
      rcases List.mem_append.mp hc with h2 | h2
      · exact ih (n / 10) c h2
      · have : c = digitChar (n % 10) := by simpa using h2
        subst this
        exact digitChar_isDigit (n % 10) (Nat.mod_lt n (by omega))

theorem natDigitsAux_head : ∀ (fuel n : Nat), n ≤ fuel →
    ∀ c, (natDigitsAux fuel n).head? = some c → c ≠ '0' := by
  intro fuel
  induction fuel with
  | zero =>
    intro n h c hc
    interval_cases n
    simp [natDigitsAux] at hc
  | succ f ih =>
    intro n h c hc
    rw [natDigitsAux] at hc
    by_cases h0 : n = 0
    · rw [if_pos h0] at hc
      simp at hc
    · rw [if_neg h0] at hc
      by_cases hq : n / 10 = 0
      · rw [hq, natDigitsAux_zero, List.nil_append] at hc
        have hm : n % 10 = n := Nat.mod_eq_of_lt (by omega)
        injection hc with hc
        subst hc
        exact digitChar_ne_zero (n % 10) (Nat.mod_lt n (by omega)) (by omega)
      · have hne := natDigitsAux_ne_nil f (n / 10) hq
          (by have := Nat.div_lt_self (by omega : 0 < n) (by norm_num : 1 < 10); omega)
        cases hd : natDigitsAux f (n / 10) with
        | nil => exact absurd hd hne
        | cons d ds =>
          rw [hd, List.cons_append, List.head?_cons] at hc
          injection hc with hc
          subst hc
          exact ih (n / 10)
            (by have := Nat.div_lt_self (by omega : 0 < n) (by norm_num : 1 < 10); omega)
            d (by rw [hd]; rfl)

theorem natDigitsAux_foldl : ∀ (fuel n a : Nat), n ≤ fuel →
    List.foldl (fun a c => a * 10 + (c.toNat - 48)) a (natDigitsAux fuel n) =
      a * 10 ^ (natDigitsAux fuel n).length + n := by
  intro fuel
  induction fuel with
  | zero =>
    intro n a h
    interval_cases n
    simp [natDigitsAux]
  | succ f ih =>
    intro n a h
    rw [natDigitsAux]
    by_cases h0 : n = 0
    · rw [if_pos h0]
      simp [h0]
    · rw [if_neg h0]
      have hdle : n / 10 ≤ f := by
        have := Nat.div_lt_self (by omega : 0 < n) (by norm_num : 1 < 10)
        omega
      rw [List.foldl_append]
      simp only [List.foldl_cons, List.foldl_nil]
      rw [ih (n / 10) a hdle]
      rw [digitChar_toNat (n % 10) (Nat.mod_lt n (by omega))]
      rw [List.length_append, List.length_cons, List.length_nil]
      rw [pow_succ]
      have hmod := Nat.div_add_mod n 10
      have h48 : 48 + n % 10 - 48 = n % 10 := by omega
      rw [h48]
      ring_nf
      omega

theorem parseNatDigits_renderNat (n : Nat) : parseNatDigits (renderNat n) = n := by
  unfold renderNat parseNatDigits
  by_cases h : n = 0
  · rw [if_pos h, h]
    decide
  · rw [if_neg h]
    rw [natDigitsAux_foldl n n 0 le_rfl]
    omega

theorem renderNat_ne_nil (n : Nat) : renderNat n ≠ [] := by
  unfold renderNat
  by_cases h : n = 0
  · rw [if_pos h]
    simp
  · rw [if_neg h]
    exact natDigitsAux_ne_nil n n h le_rfl

theorem renderNat_digits (n : Nat) : ∀ c ∈ renderNat n, c.isDigit = true := by
  unfold renderNat
  by_cases h : n = 0
  · rw [if_pos h]
    intro c hc
    have : c = '0' := by simpa using hc
    subst this
    decide
  · rw [if_neg h]
    exact fun c hc => natDigitsAux_digits n n c hc

theorem renderNat_head_ne_zero (n : Nat) (h : n ≠ 0) :
    ∀ c, (renderNat n).head? = some c → c ≠ '0' := by
  unfold renderNat
  rw [if_neg h]
  exact natDigitsAux_head n n le_rfl

theorem digit_ne_minus (c : Char) (h : c.isDigit = true) : c ≠ '-' := by
  intro h2
  subst h2
  exact absurd h (by decide)

theorem numericLexeme_digits (c : Char) (rest : Str)
    (hdig : ∀ x ∈ c :: rest, x.isDigit = true) : numericLexeme (c :: rest) = true := by
  have hc : c ≠ '-' := digit_ne_minus c (hdig c (by simp))
  have htake : (c :: rest).takeWhile Char.isDigit = c :: rest :=
    List.takeWhile_eq_self_iff.mpr hdig
  have hdrop : (c :: rest).dropWhile Char.isDigit = [] :=
    List.dropWhile_eq_nil_iff.mpr hdig
  unfold numericLexeme takeDigits
  dsimp only
  split
  · rename_i heq
    split at heq
    · rename_i r heq2
      injection heq2 with h1 h2
      exact absurd h1 hc
    · rw [htake] at heq
      simp at heq
  · split
    · rfl
    all_goals
      (rename_i r2 heq
       split at heq
       · rename_i r heq2
         injection heq2 with h1 h2
         exact absurd h1 hc
       · rw [hdrop] at heq
         exact absurd heq (by simp))

theorem char_digit_cases (c : Char) (h : c.isDigit = true) :
    c = '0' ∨ c = '1' ∨ c = '2' ∨ c = '3' ∨ c = '4' ∨
    c = '5' ∨ c = '6' ∨ c = '7' ∨ c = '8' ∨ c = '9' := by
  unfold Char.isDigit at h
  simp only [Bool.and_eq_true, decide_eq_true_eq] at h
  obtain ⟨h1, h2⟩ := h
  have h1n : 48 ≤ c.toNat := h1
  have h2n : c.toNat ≤ 57 := h2
  have hd : c.toNat = 48 ∨ c.toNat = 49 ∨ c.toNat = 50 ∨ c.toNat = 51 ∨
      c.toNat = 52 ∨ c.toNat = 53 ∨ c.toNat = 54 ∨ c.toNat = 55 ∨
      c.toNat = 56 ∨ c.toNat = 57 := by omega
  rcases hd with h|h|h|h|h|h|h|h|h|h <;> (rw [← Char.ofNat_toNat c, h]; decide)

theorem parseNumericToken_digits (c : Char) (rest : Str)
    (hdig : ∀ x ∈ c :: rest, x.isDigit = true) :
    parseNumericToken (c :: rest) = (parseNatDigits (c :: rest) : ℚ) := by
  have htake : rest.takeWhile Char.isDigit = rest :=
    List.takeWhile_eq_self_iff.mpr (fun x hx => hdig x (by simp [hx]))
  have hdrop : rest.dropWhile Char.isDigit = [] :=
    List.dropWhile_eq_nil_iff.mpr (fun x hx => hdig x (by simp [hx]))
  rcases char_digit_cases c (hdig c (by simp)) with rfl|rfl|rfl|rfl|rfl|rfl|rfl|rfl|rfl|rfl <;>
    simp [parseNumericToken, takeDigits, htake, hdrop, Rat.mkRat_one, parseNatDigits]

theorem parseNumericToken_neg_digits (c : Char) (rest : Str)
    (hdig : ∀ x ∈ c :: rest, x.isDigit = true) :
    parseNumericToken ('-' :: c :: rest) = -(parseNatDigits (c :: rest) : ℚ) := by
  have htake : rest.takeWhile Char.isDigit = rest :=
    List.takeWhile_eq_self_iff.mpr (fun x hx => hdig x (by simp [hx]))
  have hdrop : rest.dropWhile Char.isDigit = [] :=
    List.dropWhile_eq_nil_iff.mpr (fun x hx => hdig x (by simp [hx]))
  rcases char_digit_cases c (hdig c (by simp)) with rfl|rfl|rfl|rfl|rfl|rfl|rfl|rfl|rfl|rfl <;>
    simp [parseNumericToken, takeDigits, htake, hdrop, Rat.mkRat_one, parseNatDigits]

theorem digit_char_facts (c : Char) (h : c.isDigit = true) :
    jsWhitespaceChar c = false ∧ c ≠ '[' ∧ c ≠ '\n' ∧ c ≠ '.' ∧ c ≠ ':' ∧ c ≠ '"' := by
  unfold Char.isDigit at h
  simp only [Bool.and_eq_true, decide_eq_true_eq] at h
  obtain ⟨h1, h2⟩ := h
  have h1n : 48 ≤ c.toNat := h1
  have h2n : c.toNat ≤ 57 := h2
  refine ⟨?_, ?_, ?_, ?_, ?_, ?_⟩
  · cases hw : jsWhitespaceChar c
    · rfl
    · exfalso
      have := jsWs_toNat c hw
      omega
  all_goals (intro h3; subst h3; revert h1n h2n; decide)

theorem minus_char_facts :
    jsWhitespaceChar '-' = false ∧ ('-' : Char) ≠ '[' ∧ ('-' : Char) ≠ '\n' := by decide

theorem renderInt_chars (i : Int) : ∀ c ∈ renderInt i, c.isDigit = true ∨ c = '-' := by
  unfold renderInt
  split
  · intro c hc
    rcases List.mem_cons.mp hc with h | h
    · right; exact h
    · left; exact renderNat_digits i.natAbs c h
  · intro c hc
    left
    exact renderNat_digits i.natAbs c hc

theorem renderNat_eq_zero_iff (n : Nat) (h : renderNat n = ['0']) : n = 0 := by
  have := parseNatDigits_renderNat n
  rw [h] at this
  simpa using this.symm

theorem numericLexeme_neg_digits (c : Char) (rest : Str)
    (hdig : ∀ x ∈ c :: rest, x.isDigit = true) :
    numericLexeme ('-' :: c :: rest) = true := by
  have hdigc := hdig c (by simp)
  have htake : rest.takeWhile Char.isDigit = rest :=
    List.takeWhile_eq_self_iff.mpr (fun x hx => hdig x (by simp [hx]))
  have hdrop : rest.dropWhile Char.isDigit = [] :=
    List.dropWhile_eq_nil_iff.mpr (fun x hx => hdig x (by simp [hx]))
  simp [numericLexeme, takeDigits, htake, hdrop, hdigc]

theorem numericLexeme_renderInt (i : Int) : numericLexeme (renderInt i) = true := by
  unfold renderInt
  split
  · cases hr : renderNat i.natAbs with
    | nil => exact absurd hr (renderNat_ne_nil i.natAbs)
    | cons c rest =>
      exact numericLexeme_neg_digits c rest (fun x hx => renderNat_digits i.natAbs x (hr ▸ hx))
  · cases hr : renderNat i.natAbs with
    | nil => exact absurd hr (renderNat_ne_nil i.natAbs)
    | cons c rest =>
      exact numericLexeme_digits c rest (fun x hx => renderNat_digits i.natAbs x (hr ▸ hx))

theorem parseNumericToken_renderInt (i : Int) :
    parseNumericToken (renderInt i) = (i : ℚ) := by
  unfold renderInt
  split
  · rename_i hneg
    cases hr : renderNat i.natAbs with
    | nil => exact absurd hr (renderNat_ne_nil i.natAbs)
    | cons c rest =>
      rw [parseNumericToken_neg_digits c rest
        (fun x hx => renderNat_digits i.natAbs x (hr ▸ hx))]
      rw [← hr, parseNatDigits_renderNat]
      have h1 : (i.natAbs : Int) = -i := by omega
      calc -(i.natAbs : ℚ) = -(((i.natAbs : Int) : ℚ)) := by rw [Int.cast_natCast]
        _ = (i : ℚ) := by rw [h1, Int.cast_neg]; ring
  · rename_i hneg
    cases hr : renderNat i.natAbs with
    | nil => exact absurd hr (renderNat_ne_nil i.natAbs)
    | cons c rest =>
      rw [parseNumericToken_digits c rest
        (fun x hx => renderNat_digits i.natAbs x (hr ▸ hx))]
      rw [← hr, parseNatDigits_renderNat]
      have h1 : (i.natAbs : Int) = i := by omega
      calc (i.natAbs : ℚ) = (((i.natAbs : Int) : ℚ)) := by rw [Int.cast_natCast]
        _ = (i : ℚ) := by rw [h1]

theorem canonicalizeNumber_den_one (q : ℚ) (h : q.den = 1) :
    canonicalizeNumber q = renderInt q.num := by
  by_cases hz : q = 0
  · subst hz
    simp [canonicalizeNumber, renderInt, renderNat]
  · have hnum : q.num ≠ 0 := Rat.num_ne_zero.mpr hz
    have habs : q.num.natAbs ≠ 0 := by omega
    unfold canonicalizeNumber
    rw [if_neg hz]
    dsimp only
    rw [if_pos h]
    cases hr : renderNat q.num.natAbs with
    | nil => exact absurd hr (renderNat_ne_nil q.num.natAbs)
    | cons c rest =>
      have hcd : c.isDigit = true :=
        renderNat_digits q.num.natAbs c (by rw [hr]; simp)
      have hc0 : c ≠ '0' :=
        renderNat_head_ne_zero q.num.natAbs habs c (by rw [hr]; rfl)
      have hdigs : ∀ x ∈ c :: rest, x.isDigit = true := by
        intro x hx
        exact renderNat_digits q.num.natAbs x (by rw [hr]; exact hx)
      unfold renderInt
      by_cases hneg : q.num < 0
      · rw [if_pos hneg, if_pos hneg, hr, List.singleton_append]
        have hcont : ('-' :: c :: rest).contains '.' = false := by
          have : '.' ∉ '-' :: c :: rest := by
            intro hmm
            rcases List.mem_cons.mp hmm with h2 | h2
            · exact absurd h2 (by decide)
            · exact absurd ((digit_char_facts _ (hdigs _ h2)).2.2.2.1) (by simp)
          simpa using this
        have hstrip : stripTrailingZeros ('-' :: c :: rest) = '-' :: c :: rest := by
          unfold stripTrailingZeros
          rw [hcont]
          simp
        rw [hstrip]
        unfold stripLeadingZeros
        split
        · rfl
        · simp [dropLeadingZeroRun, hc0]
      · rw [if_neg hneg, if_neg hneg, hr, List.nil_append]
        have hcont : (c :: rest).contains '.' = false := by
          have : '.' ∉ c :: rest := by
            intro hmm
            exact absurd ((digit_char_facts _ (hdigs _ hmm)).2.2.2.1) (by simp)
          simpa using this
        have hstrip : stripTrailingZeros (c :: rest) = c :: rest := by
          unfold stripTrailingZeros
          rw [hcont]
          simp
        rw [hstrip]
        unfold stripLeadingZeros
        split
        · rfl
        · rcases char_digit_cases c hcd with rfl|rfl|rfl|rfl|rfl|rfl|rfl|rfl|rfl|rfl <;>
            first
              | (exact absurd rfl hc0)
              | simp [dropLeadingZeroRun]

theorem renderInt_head (i : Int) :
    ∀ c, (renderInt i).head? = some c → (c.isDigit = true ∨ c = '-') :=
  fun c hc => renderInt_chars i c (List.mem_of_mem_head? hc)

theorem renderInt_ne_true (i : Int) : renderInt i ≠ ("true").data := by
  intro heq
  have := renderInt_head i 't' (by rw [heq]; rfl)
  revert this
  decide

theorem renderInt_ne_false (i : Int) : renderInt i ≠ ("false").data := by
  intro heq
  have := renderInt_head i 'f' (by rw [heq]; rfl)
  revert this
  decide

theorem renderInt_ne_null (i : Int) : renderInt i ≠ ("null").data := by
  intro heq
  have := renderInt_head i 'n' (by rw [heq]; rfl)
  revert this
  decide

theorem renderInt_ne_nil (i : Int) : renderInt i ≠ [] := by
  unfold renderInt
  split
  · simp
  · exact renderNat_ne_nil i.natAbs

theorem renderInt_ne_minus (i : Int) : renderInt i ≠ ['-'] := by
  unfold renderInt
  split
  · intro heq
    injection heq with h1 h2
    exact absurd h2 (renderNat_ne_nil i.natAbs)
  · intro heq
    have := renderNat_digits i.natAbs '-' (by rw [heq]; simp)
    exact absurd this (by decide)

theorem isNumericToken_renderInt (i : Int) : isNumericToken (renderInt i) = true := by
  unfold isNumericToken
  rw [numericLexeme_renderInt i]
  simp only [Bool.true_and]
  cases hr : renderInt i with
  | nil => exact absurd hr (renderInt_ne_nil i)
  | cons a b =>
    have h3 : a :: b ≠ ['-'] := hr ▸ renderInt_ne_minus i
    simp [h3]

theorem parseToken_renderInt (i : Int) : parseToken (renderInt i) = Json.num (i : ℚ) := by
  unfold parseToken
  rw [if_neg (renderInt_ne_true i), if_neg (renderInt_ne_false i),
    if_neg (renderInt_ne_null i), if_pos (isNumericToken_renderInt i)]
  unfold parseNumber
  rw [parseNumericToken_renderInt i]

theorem jsTrim_renderInt (i : Int) : jsTrim (renderInt i) = renderInt i := by
  apply jsTrim_eq_self
  · intro c hc
    rcases renderInt_chars i c (List.mem_of_mem_head? hc) with h | h
    · exact (digit_char_facts c h).1
    · subst h
      decide
  · intro c hc
    rcases renderInt_chars i c (List.mem_of_mem_getLast? hc) with h | h
    · exact (digit_char_facts c h).1
    · subst h
      decide

theorem parseTokenValue_canonical (q : ℚ) (h : q.den = 1) :
    parseTokenValue (canonicalizeNumber q) = .ok (.num q) := by
  rw [canonicalizeNumber_den_one q h]
  unfold parseTokenValue
  dsimp only
  rw [jsTrim_renderInt]
  have hhead : (renderInt q.num).head? ≠ some '"' := by
    intro hc
    rcases renderInt_head q.num '"' hc with h2 | h2
    · exact absurd h2 (by decide)
    · exact absurd h2 (by decide)
  rw [if_neg (by simp [hhead])]
  rw [parseToken_renderInt q.num]
  rw [(Rat.den_eq_one_iff q).mp h]

theorem mem_escChar (x c : Char) (h : x ∈ escChar c) :
    x ∈ ['\\', '"', 'n', 'r', 't'] ∨
      (x = c ∧ c ≠ '\\' ∧ c ≠ '"' ∧ c ≠ '\n' ∧ c ≠ '\r' ∧ c ≠ '\t') := by
  unfold escChar at h
  split_ifs at h with h1 h2 h3 h4 h5 <;> simp_all <;> tauto

theorem escapeString_no_newline (s : Str) : '\n' ∉ escapeString s := by
  intro hmem
  unfold escapeString at hmem
  obtain ⟨l, hl, hx⟩ := List.mem_join.mp hmem
  obtain ⟨c, hc, rfl⟩ := List.mem_map.mp hl
  rcases mem_escChar '\n' c hx with h | ⟨h1, h2⟩
  · exact absurd h (by decide)
  · exact absurd h1.symm h2.2.2.1

theorem escapeString_no_bracket (s : Str) (h : '[' ∉ s) : '[' ∉ escapeString s := by
  intro hmem
  unfold escapeString at hmem
  obtain ⟨l, hl, hx⟩ := List.mem_join.mp hmem
  obtain ⟨c, hc, rfl⟩ := List.mem_map.mp hl
  rcases mem_escChar '[' c hx with h2 | ⟨h1, h2⟩
  · exact absurd h2 (by decide)
  · exact absurd (h1 ▸ hc) h

theorem needsQuoting_false_facts (value : Str) (a d : Char) (ctx : ECtx)
    (h : needsQuoting value a d ctx = false) :
    value ≠ [] ∧
    (∀ c, value.head? = some c → jsWhitespaceChar c = false) ∧
    (∀ c, value.getLast? = some c → jsWhitespaceChar c = false) ∧
    value ≠ ("true").data ∧ value ≠ ("false").data ∧ value ≠ ("null").data ∧
    numericLexeme value = false ∧
    (∀ c ∈ value, c ≠ ':' ∧ c ≠ '"' ∧ c ≠ '\\' ∧ c ≠ '[' ∧ c ≠ ']' ∧
      c ≠ obrace ∧ c ≠ cbrace) ∧
    (∀ c ∈ value, c ≠ '\n' ∧ c ≠ '\r' ∧ c ≠ '\t') := by
  unfold needsQuoting at h
  split_ifs at h with h1 h2 h3 h4 h5 h6 h7 h8
  all_goals try exact absurd h (by decide)
  refine ⟨by simpa using h1, ?_, ?_, ?_, ?_, ?_, ?_, ?_, ?_⟩
  · intro c hc
    rw [Bool.or_eq_true] at h2
    push_neg at h2
    have := h2.1
    rw [hc] at this
    simpa using this
  · intro c hc
    rw [Bool.or_eq_true] at h2
    push_neg at h2
    have := h2.2
    rw [hc] at this
    simpa using this
  · intro hc
    exact h3 (by simp [hc])
  · intro hc
    exact h3 (by simp [hc])
  · intro hc
    exact h3 (by simp [hc])
  · simpa using h4
  · intro c hc
    have h6' : ¬ (value.any (fun c => c = ':' || c = '"' || c = '\\' ||
        c = '[' || c = ']' || c = obrace || c = cbrace)) = true := h6
    rw [List.any_eq_true] at h6'
    push_neg at h6'
    have := h6' c hc
    simp at this
    tauto
  · intro c hc
    have h7' : ¬ (value.any (fun c => c = '\n' || c = '\r' || c = '\t')) = true := h7
    rw [List.any_eq_true] at h7'
    push_neg at h7'
    have := h7' c hc
    simp at this
    tauto

theorem parseTokenValue_unquoted (s : Str) (a d : Char) (ctx : ECtx)
    (h : needsQuoting s a d ctx = false) : parseTokenValue s = .ok (.str s) := by
  obtain ⟨hne, hhead, hlast, ht, hf, hn, hnum, hstruct, hnl⟩ :=
    needsQuoting_false_facts s a d ctx h
  unfold parseTokenValue
  dsimp only
  rw [jsTrim_eq_self s hhead hlast]
  have hq : s.head? ≠ some '"' := by
    intro hc
    exact absurd rfl (hstruct '"' (List.mem_of_mem_head? hc)).2.1
  rw [if_neg (by simp [hq])]
  unfold parseToken
  rw [if_neg ht, if_neg hf, if_neg hn]
  rw [if_neg (by unfold isNumericToken; simp [hnum])]

theorem dropLast_concat_str (l : Str) (a : Char) : (l ++ [a]).dropLast = l := by
  simp

theorem parseTokenValue_quoted (s : Str) :
    parseTokenValue ('"' :: escapeString s ++ ['"']) = .ok (.str s) := by
  unfold parseTokenValue
  dsimp only
  have hlast : ('"' :: escapeString s ++ ['"']).getLast? = some '"' := by
    rw [List.cons_append, List.getLast?_cons, List.getLast?_append_of_ne_nil _ (by simp)]
    rfl
  have htrim : jsTrim ('"' :: escapeString s ++ ['"']) = '"' :: escapeString s ++ ['"'] := by
    apply jsTrim_eq_self
    · intro c hc
      rw [List.cons_append, List.head?_cons] at hc
      injection hc with hc
      subst hc
      decide
    · intro c hc
      rw [hlast] at hc
      injection hc with hc
      subst hc
      decide
  rw [htrim]
  rw [if_pos (by rw [hlast]; simp)]
  rw [List.cons_append, List.drop_one, List.tail_cons, dropLast_concat_str]
  rw [unescape_escape]
  rfl

theorem encodeObjPrimValue_facts (opts : EncOpts) (v : Json)
    (hv : flatSafeValue v = true) :
    parseTokenValue (encodeObjPrimValue opts v) = .ok v ∧
    encodeObjPrimValue opts v ≠ [] ∧
    (∀ c, (encodeObjPrimValue opts v).head? = some c → jsWhitespaceChar c = false) ∧
    (∀ c, (encodeObjPrimValue opts v).getLast? = some c → jsWhitespaceChar c = false) ∧
    '[' ∉ encodeObjPrimValue opts v ∧
    '\n' ∉ encodeObjPrimValue opts v := by
  cases v with
  | null =>
    refine ⟨rfl, by simp [encodeObjPrimValue],
      (by decide : ∀ c, (("null").data).head? = some c → jsWhitespaceChar c = false),
      (by decide : ∀ c, (("null").data).getLast? = some c → jsWhitespaceChar c = false),
      (by decide : ('[' : Char) ∉ ("null").data),
      (by decide : ('\n' : Char) ∉ ("null").data)⟩
  | bool b =>
    cases b
    · refine ⟨rfl, by simp [encodeObjPrimValue],
        (by decide : ∀ c, (("false").data).head? = some c → jsWhitespaceChar c = false),
        (by decide : ∀ c, (("false").data).getLast? = some c → jsWhitespaceChar c = false),
        (by decide : ('[' : Char) ∉ ("false").data),
        (by decide : ('\n' : Char) ∉ ("false").data)⟩
    · refine ⟨rfl, by simp [encodeObjPrimValue],
        (by decide : ∀ c, (("true").data).head? = some c → jsWhitespaceChar c = false),
        (by decide : ∀ c, (("true").data).getLast? = some c → jsWhitespaceChar c = false),
        (by decide : ('[' : Char) ∉ ("true").data),
        (by decide : ('\n' : Char) ∉ ("true").data)⟩
  | num q =>
    have hden : q.den = 1 := by simpa [flatSafeValue] using hv
    have hren : encodeObjPrimValue opts (.num q) = renderInt q.num := by
      show canonicalizeNumber q = renderInt q.num
      exact canonicalizeNumber_den_one q hden
    rw [hren]
    refine ⟨?_, renderInt_ne_nil q.num, ?_, ?_, ?_, ?_⟩
    · rw [← hren]
      show parseTokenValue (canonicalizeNumber q) = .ok (.num q)
      exact parseTokenValue_canonical q hden
    · intro c hc
      rcases renderInt_chars q.num c (List.mem_of_mem_head? hc) with h | h
      · exact (digit_char_facts c h).1
      · subst h
        decide
    · intro c hc
      rcases renderInt_chars q.num c (List.mem_of_mem_getLast? hc) with h | h
      · exact (digit_char_facts c h).1
      · subst h
        decide
    · intro hmem
      rcases renderInt_chars q.num '[' hmem with h | h
      · exact absurd h (by decide)
      · exact absurd h (by decide)
    · intro hmem
      rcases renderInt_chars q.num '\n' hmem with h | h
      · exact absurd h (by decide)
      · exact absurd h (by decide)
  | str s =>
    have hbr : '[' ∉ s := by
      have : s.contains '[' = false := by simpa [flatSafeValue] using hv
      simpa using this
    by_cases hq : needsQuoting s opts.delimiter.char opts.delimiter.char .object
    · have heq : encodeObjPrimValue opts (Json.str s) = '"' :: escapeString s ++ ['"'] := by
        show encodeString opts s opts.delimiter .object = _
        unfold encodeString
        rw [if_pos hq]
      rw [heq]
      refine ⟨parseTokenValue_quoted s, by simp, ?_, ?_, ?_, ?_⟩
      · intro c hc
        rw [List.cons_append, List.head?_cons] at hc
        injection hc with hc
        subst hc
        decide
      · intro c hc
        rw [List.cons_append, List.getLast?_cons,
          List.getLast?_append_of_ne_nil _ (by simp)] at hc
        injection hc with hc
        subst hc
        decide
      · intro hmem
        rw [List.cons_append, List.mem_cons] at hmem
        rcases hmem with h | h
        · exact absurd h (by decide)
        · rcases List.mem_append.mp h with h2 | h2
          · exact absurd h2 (escapeString_no_bracket s hbr)
          · exact absurd (by simpa using h2) (by decide : ('[' : Char) ≠ '"')
      · intro hmem
        rw [List.cons_append, List.mem_cons] at hmem
        rcases hmem with h | h
        · exact absurd h (by decide)
        · rcases List.mem_append.mp h with h2 | h2
          · exact absurd h2 (escapeString_no_newline s)
          · exact absurd (by simpa using h2) (by decide : ('\n' : Char) ≠ '"')
    · have hq2 : needsQuoting s opts.delimiter.char opts.delimiter.char .object = false :=
        Bool.not_eq_true _ ▸ hq
      have heq : encodeObjPrimValue opts (Json.str s) = s := by
        show encodeString opts s opts.delimiter .object = _
        unfold encodeString
        rw [if_neg hq]
      rw [heq]
      obtain ⟨hne, hhead, hlast, _, _, _, _, hstruct, hnl⟩ :=
        needsQuoting_false_facts s _ _ _ hq2
      refine ⟨parseTokenValue_unquoted s _ _ _ hq2, hne, hhead, hlast, ?_, ?_⟩
      · intro hmem
        exact absurd rfl (hstruct '[' hmem).2.2.2.1
      · intro hmem
        exact absurd rfl (hnl '\n' hmem).1
  | arr l => exact absurd hv (by simp [flatSafeValue])
  | obj o => exact absurd hv (by simp [flatSafeValue])

theorem encodeKey_valid (k : Str) (h : isValidKey k = true) : encodeKey k = k := by
  simp [encodeKey, keyNeedsQuoting, h]

theorem jsTrim_key (k : Str) (h : isValidKey k = true) : jsTrim k = k := by
  obtain ⟨hne, hall⟩ := validKey_chars k h
  exact jsTrim_eq_self k
    (fun c hc => (keyChar_facts c (hall c (List.mem_of_mem_head? hc))).1)
    (fun c hc => (keyChar_facts c (hall c (List.mem_of_mem_getLast? hc))).1)

theorem fucGo_key (k t : Str) (hk : ∀ c ∈ k, c ≠ ':' ∧ c ≠ '"' ∧ c ≠ '\\') :
    ∀ i, fucGo (k ++ ':' :: t) i false false = some (i + k.length) := by
  induction k with
  | nil =>
    intro i
    rw [List.nil_append, fucGo]
    simp
  | cons c k2 ih =>
    intro i
    obtain ⟨h1, h2, h3⟩ := hk c (by simp)
    rw [List.cons_append, fucGo]
    rw [if_neg (by simp)]
    rw [if_neg h3, if_neg h2]
    rw [if_neg (by simp [h1])]
    rw [ih (fun x hx => hk x (by simp [hx])) (i + 1)]
    congr 1
    simp
    omega

theorem findUnquotedColon_key (k t : Str)
    (hk : ∀ c ∈ k, c ≠ ':' ∧ c ≠ '"' ∧ c ≠ '\\') :
    findUnquotedColon (k ++ ':' :: t) = some k.length := by
  unfold findUnquotedColon
  rw [fucGo_key k t hk 0]
  simp

theorem matchesHeaderStart_no_bracket (s : Str)
    (h : ∀ c, s.head? = some c → c ≠ '[') : matchesHeaderStart s = false := by
  cases s with
  | nil => rfl
  | cons c rest =>
    rw [matchesHeaderStart.eq_def]
    split
    · rename_i heq
      injection heq with hc1 hc2
      exact absurd hc1 (h c rfl)
    · rfl

theorem containsHeaderPattern_no_bracket (s : Str) (h : '[' ∉ s) :
    containsHeaderPattern s = false := by
  induction s with
  | nil => rfl
  | cons c rest ih =>
    rw [containsHeaderPattern]
    rw [matchesHeaderStart_no_bracket (c :: rest) (by
      intro c2 hc2
      injection hc2 with hc2
      subst hc2
      intro hcc
      exact h (by simp [hcc]))]
    rw [ih (fun hm => h (by simp [hm]))]
    rfl

theorem unquoteIfQuoted_key (k : Str) (h : isValidKey k = true) :
    unquoteIfQuoted k = .ok k := by
  obtain ⟨hne, hall⟩ := validKey_chars k h
  unfold unquoteIfQuoted
  rw [if_neg]
  intro hc
  rw [Bool.and_eq_true] at hc
  have hh : k.head? = some '"' := by simpa using hc.1
  exact absurd rfl (keyChar_facts '"' (hall '"' (List.mem_of_mem_head? hh))).2.2.1

theorem renderEntryLine_eq (opts : EncOpts) (k : Str) (v : Json)
    (hk : isValidKey k = true) :
    renderEntryLine opts (k, v) = k ++ ':' :: ' ' :: encodeObjPrimValue opts v := by
  unfold renderEntryLine
  rw [encodeKey_valid k hk]
  simp

theorem entry_no_newline (opts : EncOpts) (k : Str) (v : Json)
    (hk : isValidKey k = true) (hv : flatSafeValue v = true) :
    '\n' ∉ renderEntryLine opts (k, v) := by
  rw [renderEntryLine_eq opts k v hk]
  intro hmem
  rcases List.mem_append.mp hmem with h | h
  · exact absurd rfl
      (keyChar_facts '\n' ((validKey_chars k hk).2 '\n' h)).2.2.2.2.2
  · rcases List.mem_cons.mp h with h2 | h2
    · exact absurd h2 (by decide)
    · rcases List.mem_cons.mp h2 with h3 | h3
      · exact absurd h3 (by decide)
      · exact absurd h3 (encodeObjPrimValue_facts opts v hv).2.2.2.2.2

theorem entry_no_bracket (opts : EncOpts) (k : Str) (v : Json)
    (hk : isValidKey k = true) (hv : flatSafeValue v = true) :
    '[' ∉ renderEntryLine opts (k, v) := by
  rw [renderEntryLine_eq opts k v hk]
  intro hmem
  rcases List.mem_append.mp hmem with h | h
  · exact absurd rfl
      (keyChar_facts '[' ((validKey_chars k hk).2 '[' h)).2.2.2.2.1
  · rcases List.mem_cons.mp h with h2 | h2
    · exact absurd h2 (by decide)
    · rcases List.mem_cons.mp h2 with h3 | h3
      · exact absurd h3 (by decide)
      · exact absurd h3 (encodeObjPrimValue_facts opts v hv).2.2.2.2.1

theorem entry_head (opts : EncOpts) (k : Str) (v : Json)
    (hk : isValidKey k = true) :
    ∀ c, (renderEntryLine opts (k, v)).head? = some c → isIdentLeadChar c = true := by
  rw [renderEntryLine_eq opts k v hk]
  intro c hc
  cases k with
  | nil => exact absurd hk (by simp [isValidKey])
  | cons c0 k2 =>
    rw [List.cons_append, List.head?_cons] at hc
    injection hc with hc
    subst hc
    exact validKey_head (c0 :: k2) hk c0 rfl

theorem entry_trim (opts : EncOpts) (k : Str) (v : Json)
    (hk : isValidKey k = true) (hv : flatSafeValue v = true) :
    jsTrim (renderEntryLine opts (k, v)) = renderEntryLine opts (k, v) := by
  obtain ⟨_, hvne, hvhead, hvlast, _, _⟩ := encodeObjPrimValue_facts opts v hv
  apply jsTrim_eq_self
  · intro c hc
    have hlead := entry_head opts k v hk c hc
    cases hw : jsWhitespaceChar c
    · rfl
    · exfalso
      have := jsWs_toNat c hw
      have := identTail_toNat c (identLead_tail c hlead)
      omega
  · intro c hc
    rw [renderEntryLine_eq opts k v hk] at hc
    have hsplit : k ++ ':' :: ' ' :: encodeObjPrimValue opts v =
        (k ++ [':', ' ']) ++ encodeObjPrimValue opts v := by simp
    rw [hsplit, List.getLast?_append_of_ne_nil _ hvne] at hc
    exact hvlast c hc

theorem entry_ne_nil (opts : EncOpts) (k : Str) (v : Json)
    (hk : isValidKey k = true) :
    renderEntryLine opts (k, v) ≠ [] := by
  rw [renderEntryLine_eq opts k v hk]
  cases k with
  | nil => exact absurd hk (by simp [isValidKey])
  | cons c0 k2 => simp

theorem entry_colon_parts (opts : EncOpts) (k : Str) (v : Json)
    (hk : isValidKey k = true) :
    findUnquotedColon (renderEntryLine opts (k, v)) = some k.length ∧
    (renderEntryLine opts (k, v)).take k.length = k ∧
    (renderEntryLine opts (k, v)).drop (k.length + 1) = ' ' :: encodeObjPrimValue opts v := by
  rw [renderEntryLine_eq opts k v hk]
  have hall := (validKey_chars k hk).2
  refine ⟨?_, ?_, ?_⟩
  · exact findUnquotedColon_key k _ (fun c hc =>
      ⟨(keyChar_facts c (hall c hc)).2.1, (keyChar_facts c (hall c hc)).2.2.1,
       (keyChar_facts c (hall c hc)).2.2.2.1⟩)
  · rw [List.take_left]
  · rw [List.drop_append 1]
    rfl

theorem splitChar_no_sep (sep : Char) (l : Str) (h : sep ∉ l) : splitChar sep l = [l] := by
  induction l with
  | nil => rfl
  | cons c rest ih =>
    rw [splitChar]
    rw [if_neg (fun hc => h (by simp [hc]))]
    rw [ih (fun hm => h (by simp [hm]))]

theorem splitChar_append_sep (sep : Char) (l t : Str) (h : sep ∉ l) :
    splitChar sep (l ++ sep :: t) = l :: splitChar sep t := by
  induction l with
  | nil =>
    rw [List.nil_append, splitChar, if_pos rfl]
  | cons c rest ih =>
    rw [List.cons_append, splitChar]
    rw [if_neg (fun hc => h (by simp [hc]))]
    rw [ih (fun hm => h (by simp [hm]))]

theorem splitChar_joinChar (sep : Char) (ls : List Str) (hne : ls ≠ [])
    (h : ∀ l ∈ ls, sep ∉ l) : splitChar sep (joinChar sep ls) = ls := by
  induction ls with
  | nil => exact absurd rfl hne
  | cons l rest ih =>
    cases rest with
    | nil => exact splitChar_no_sep sep l (h l (by simp))
    | cons l2 rest2 =>
      rw [joinChar]
      · rw [splitChar_append_sep sep l _ (h l (by simp))]
        rw [ih (List.cons_ne_nil l2 rest2) (fun x hx => h x (by simp [hx]))]
      · exact fun hh => List.noConfusion hh

theorem parseLinesGo_nonstrict (w : Nat) (e : Bool) :
    ∀ (ls : List Str) (i : Nat),
      parseLinesGo ⟨w, false, e⟩ ls i = .ok (buildLines ls i) := by
  intro ls
  induction ls with
  | nil => intro i; rfl
  | cons l rest ih =>
    intro i
    rw [parseLinesGo]
    rw [if_neg (by simp)]
    rw [if_neg (by simp)]
    rw [ih (i + 1)]
    rfl

theorem buildLines_length (ls : List Str) (i : Nat) :
    (buildLines ls i).length = ls.length := by
  induction ls generalizing i with
  | nil => rfl
  | cons l rest ih =>
    rw [buildLines]
    simp [ih]

theorem mem_buildLines (ls : List Str) (i : Nat) :
    ∀ pl ∈ buildLines ls i, ∃ l ∈ ls, pl.content = l ∧ pl.isEmpty = (jsTrim l).isEmpty := by
  induction ls generalizing i with
  | nil => intro pl hpl; simp [buildLines] at hpl
  | cons l rest ih =>
    intro pl hpl
    rw [buildLines] at hpl
    rcases List.mem_cons.mp hpl with h | h
    · exact ⟨l, by simp, by rw [h], by rw [h]⟩
    · obtain ⟨l2, hl2, hc, he⟩ := ih (i + 1) pl h
      exact ⟨l2, by simp [hl2], hc, he⟩

theorem filter_buildLines (ls : List Str) (i : Nat)
    (h : ∀ l ∈ ls, (jsTrim l).isEmpty = false) :
    (buildLines ls i).filter (fun l => !l.isEmpty) = buildLines ls i := by
  rw [List.filter_eq_self]
  intro pl hpl
  obtain ⟨l, hl, _, he⟩ := mem_buildLines ls i pl hpl
  rw [he, h l hl]
  rfl

theorem length_le_sum_of_pos (l : List Nat) (h : ∀ x ∈ l, 1 ≤ x) :
    l.length ≤ l.sum := by
  induction l with
  | nil => simp
  | cons x rest ih =>
    rw [List.length_cons, List.sum_cons]
    have h1 := h x (by simp)
    have h2 := ih (fun y hy => h y (by simp [hy]))
    omega

theorem jsonSize_pos (v : Json) : 1 ≤ jsonSize v := by
  cases v <;> simp [jsonSize]

theorem jsonSize_obj_ge (o : Obj) : o.length + 1 ≤ jsonSize (Json.obj o) := by
  rw [jsonSize]
  have hsum : (o.attach.map (fun p => jsonSize p.1.2)).length ≤
      (o.attach.map (fun p => jsonSize p.1.2)).sum := by
    apply length_le_sum_of_pos
    intro x hx
    obtain ⟨p, _, rfl⟩ := List.mem_map.mp hx
    exact jsonSize_pos p.1.2
  rw [List.length_map, List.length_attach] at hsum
  omega

theorem setKey_fresh (o : Obj) (k : Str) (v : Json) (h : ∀ p ∈ o, p.1 ≠ k) :
    setKey o k v = o ++ [(k, v)] := by
  unfold setKey
  rw [if_neg]
  intro hc
  rw [List.any_eq_true] at hc
  obtain ⟨p, hp, hpk⟩ := hc
  exact absurd (by simpa using hpk) (h p hp)

theorem foldl_setKey_fresh : ∀ (o acc : Obj), (o.map Prod.fst).Nodup →
    (∀ p ∈ o, ∀ q ∈ acc, q.1 ≠ p.1) →
    o.foldl (fun a p => setKey a p.1 p.2) acc = acc ++ o := by
  intro o
  induction o with
  | nil => intro acc _ _; simp
  | cons p rest ih =>
    intro acc hnd hdisj
    rw [List.foldl_cons]
    rw [setKey_fresh acc p.1 p.2 (fun q hq => hdisj p (by simp) q hq)]
    have hnd2 : (rest.map Prod.fst).Nodup := by
      rw [List.map_cons, List.nodup_cons] at hnd
      exact hnd.2
    have hp1 : p.1 ∉ rest.map Prod.fst := by
      rw [List.map_cons, List.nodup_cons] at hnd
      exact hnd.1
    rw [ih (acc ++ [(p.1, p.2)]) hnd2 ?_]
    · simp
    · intro r hr q hq
      rcases List.mem_append.mp hq with h2 | h2
      · exact hdisj r (by simp [hr]) q h2
      · have : q = (p.1, p.2) := by simpa using h2
        subst this
        intro hc
        exact hp1 (hc ▸ List.mem_map.mpr ⟨r, hr, rfl⟩)

theorem flatSafeValue_prim (v : Json) (h : flatSafeValue v = true) :
    isPrimitiveValue v = true := by
  cases v <;> simp_all [flatSafeValue, isPrimitiveValue]

theorem normalizeValueF_prim (f : Nat) (v : Json) (h : isPrimitiveValue v = true) :
    normalizeValueF f v = v := by
  cases f with
  | zero => rfl
  | succ f2 => cases v <;> simp_all [normalizeValueF, isPrimitiveValue]

theorem normalizeValue_flat (o : Obj) (h : ∀ p ∈ o, isPrimitiveValue p.2 = true) :
    normalizeValue (Json.obj o) = Json.obj o := by
  unfold normalizeValue
  rw [normalizeValueF]
  congr 1
  calc o.map (fun p => (p.1, normalizeValueF (jsonSize (Json.obj o)) p.2))
      = o.map id := by
        apply List.map_congr_left
        intro p hp
        rw [normalizeValueF_prim _ _ (h p hp)]
        rfl
    _ = o := List.map_id o

theorem encodeStep_flat_entries (opts : EncOpts) :
    ∀ (o : Obj) (fuel : Nat), o.length < fuel →
      (∀ p ∈ o, isPrimitiveValue p.2 = true) →
      encodeStep opts fuel (.objEntries o 0) = o.map (renderEntryLine opts) := by
  intro o
  induction o with
  | nil =>
    intro fuel hf _
    cases fuel with
    | zero => omega
    | succ f =>
      rw [encodeStep]
      rfl
  | cons p rest ih =>
    intro fuel hf hprim
    obtain ⟨k, v⟩ := p
    cases fuel with
    | zero => omega
    | succ f =>
      have hrest : encodeStep opts f (.objEntries rest 0) = rest.map (renderEntryLine opts) :=
        ih f (by simpa using Nat.lt_of_succ_lt_succ hf) (fun q hq => hprim q (by simp [hq]))
      have hv := hprim (k, v) (by simp)
      cases v with
      | null =>
        rw [encodeStep]
        · rw [hrest]
          simp [renderEntryLine, indent, encodeObjPrimValue]
        · intro nested hcc
          exact Json.noConfusion hcc
        · intro o2 hcc
          exact Json.noConfusion hcc
      | bool b =>
        rw [encodeStep]
        · rw [hrest]
          simp [renderEntryLine, indent, encodeObjPrimValue]
        · intro nested hcc
          exact Json.noConfusion hcc
        · intro o2 hcc
          exact Json.noConfusion hcc
      | num q =>
        rw [encodeStep]
        · rw [hrest]
          simp [renderEntryLine, indent, encodeObjPrimValue]
        · intro nested hcc
          exact Json.noConfusion hcc
        · intro o2 hcc
          exact Json.noConfusion hcc
      | str s2 =>
        rw [encodeStep]
        · rw [hrest]
          simp [renderEntryLine, indent, encodeObjPrimValue]
        · intro nested hcc
          exact Json.noConfusion hcc
        · intro o2 hcc
          exact Json.noConfusion hcc
      | arr l => exact absurd hv (by simp [isPrimitiveValue])
      | obj o2 => exact absurd hv (by simp [isPrimitiveValue])

theorem encode_flat (w : Nat) (d : Delim) (o : Obj)
    (hvals : ∀ p ∈ o, flatSafeValue p.2 = true) :
    encode ⟨w, d, false, none⟩ (Json.obj o) =
      joinChar '\n' (o.map (renderEntryLine ⟨w, d, false, none⟩)) := by
  unfold encode
  dsimp only
  rw [normalizeValue_flat o (fun p hp => flatSafeValue_prim p.2 (hvals p hp))]
  rw [if_neg (by simp)]
  obtain ⟨f, hfeq⟩ : ∃ f, encodeFuel (Json.obj o) = f + 1 :=
    ⟨4 * jsonSize (Json.obj o) + 7, by unfold encodeFuel; omega⟩
  rw [hfeq, encodeStep]
  rw [encodeStep_flat_entries ⟨w, d, false, none⟩ o f ?_
    (fun p hp => flatSafeValue_prim p.2 (hvals p hp))]
  have h1 := jsonSize_obj_ge o
  have h2 : 4 * jsonSize (Json.obj o) + 8 = f + 1 := by rw [← hfeq]; rfl
  omega

theorem get?_eq_drop_head (l : List ParsedLine) (i : Nat) :
    l.get? i = (l.drop i).head? := by
  rw [List.get?_eq_getElem?, List.head?_eq_getElem?, List.getElem?_drop]
  norm_num

theorem list_isEmpty_false {α : Type} (l : List α) (h : l ≠ []) : l.isEmpty = false := by
  cases l with
  | nil => exact absurd rfl h
  | cons a b => rfl

theorem objLoop_flat (opts : EncOpts) (wI : Nat) (strict : Bool)
    (allLines : List ParsedLine) :
    ∀ (rem : Obj) (fuel i n : Nat) (acc : Obj),
      (∀ p ∈ rem, isValidKey p.1 = true ∧ flatSafeValue p.2 = true) →
      allLines.drop i = buildLines (rem.map (renderEntryLine opts)) n →
      rem.length < fuel →
      decodeStep ⟨strict, wI, allLines⟩ fuel (.objLoop 0 i 0 acc) =
        .ok (.object (rem.foldl (fun a p => setKey a p.1 p.2) acc)) := by
  intro rem
  induction rem with
  | nil =>
    intro fuel i n acc _ hdrop hf
    cases fuel with
    | zero => omega
    | succ f =>
      have hget : allLines.get? i = none := by
        rw [get?_eq_drop_head, hdrop]
        rfl
      rw [decodeStep]
      dsimp only
      rw [hget]
      rfl
  | cons p rem2 ih =>
    intro fuel i n acc hents hdrop hf
    obtain ⟨k, v⟩ := p
    have hk : isValidKey k = true := (hents (k, v) (by simp)).1
    have hv : flatSafeValue (k, v).2 = true := (hents (k, v) (by simp)).2
    obtain ⟨hparse, hvne, hvhead, hvlast, hvbr, hvnl⟩ :=
      encodeObjPrimValue_facts opts v hv
    have htrim := entry_trim opts k v hk hv
    have hget : allLines.get? i = some
        ⟨renderEntryLine opts (k, v),
         countLeadingSpaces (renderEntryLine opts (k, v)), n + 1,
         (jsTrim (renderEntryLine opts (k, v))).isEmpty⟩ := by
      rw [get?_eq_drop_head, hdrop, List.map_cons, buildLines]
      rfl
    have hdrop2 : allLines.drop (i + 1) = buildLines (rem2.map (renderEntryLine opts)) (n + 1) := by
      rw [← List.tail_drop, hdrop, List.map_cons, buildLines]
      rfl
    cases fuel with
    | zero => omega
    | succ f =>
      rw [decodeStep]
      dsimp only
      rw [hget]
      dsimp only
      rw [htrim]
      rw [if_neg (by rw [list_isEmpty_false _ (entry_ne_nil opts k v hk)]; simp)]
      rw [if_neg (by simp)]
      rw [containsHeaderPattern_no_bracket _ (entry_no_bracket opts k v hk hv)]
      rw [if_neg (by simp)]
      obtain ⟨hcolon, htake, hdropc⟩ := entry_colon_parts opts k v hk
      rw [hcolon]
      dsimp only
      rw [htake, hdropc, jsTrim_key k hk]
      rw [jsTrim_space_cons, jsTrim_eq_self _ hvhead hvlast]
      rw [unquoteIfQuoted_key k hk]
      rw [except_bind_ok_eq]
      rw [if_neg (by rw [list_isEmpty_false _ hvne]; simp)]
      rw [hparse]
      rw [except_bind_ok_eq]
      rw [ih f (i + 1) (n + 1) (setKey acc k v)
        (fun q hq => hents q (by simp [hq])) hdrop2
        (by simpa using Nat.lt_of_succ_lt_succ hf)]
      rw [List.foldl_cons]

theorem determineRootForm_entry (opts : EncOpts) (k : Str) (v : Json)
    (hk : isValidKey k = true) (hv : flatSafeValue v = true)
    (pl : ParsedLine) (rest : List ParsedLine)
    (hc : pl.content = renderEntryLine opts (k, v)) :
    determineRootForm (pl :: rest) = .object := by
  unfold determineRootForm
  dsimp only
  rw [hc, entry_trim opts k v hk hv]
  rw [matchesHeaderStart_no_bracket _ (by
    intro c hcH
    have hlead := entry_head opts k v hk c hcH
    intro hcc
    subst hcc
    exact absurd hlead (by decide))]
  rw [if_neg (by simp)]
  have hmem : ':' ∈ renderEntryLine opts (k, v) := by
    rw [renderEntryLine_eq opts k v hk]
    exact List.mem_append_right _ (by simp)
  rw [if_neg (by
    simp
    intro _
    exact hmem)]

theorem decode_flat (w : Nat) (opts : EncOpts) (o : Obj)
    (hne : o ≠ []) (hnd : (o.map Prod.fst).Nodup)
    (hkeys : ∀ p ∈ o, isValidKey p.1 = true)
    (hvals : ∀ p ∈ o, flatSafeValue p.2 = true) :
    decode ⟨w, false, false⟩ (joinChar '\n' (o.map (renderEntryLine opts))) =
      .ok (Json.obj o) := by
  have hlsne : o.map (renderEntryLine opts) ≠ [] := by
    cases o with
    | nil => exact absurd rfl hne
    | cons a b => simp
  have hnl : ∀ l ∈ o.map (renderEntryLine opts), '\n' ∉ l := by
    intro l hl
    obtain ⟨p, hp, rfl⟩ := List.mem_map.mp hl
    exact entry_no_newline opts p.1 p.2 (hkeys p hp) (hvals p hp)
  have hsplit : splitChar '\n' (joinChar '\n' (o.map (renderEntryLine opts))) =
      o.map (renderEntryLine opts) :=
    splitChar_joinChar '\n' _ hlsne hnl
  have hparse : parseLines ⟨w, false, false⟩
      (joinChar '\n' (o.map (renderEntryLine opts))) =
      .ok (buildLines (o.map (renderEntryLine opts)) 0) := by
    unfold parseLines
    rw [hsplit, parseLinesGo_nonstrict]
  have hblank : ∀ l ∈ o.map (renderEntryLine opts), (jsTrim l).isEmpty = false := by
    intro l hl
    obtain ⟨p, hp, rfl⟩ := List.mem_map.mp hl
    rw [entry_trim opts p.1 p.2 (hkeys p hp) (hvals p hp)]
    exact list_isEmpty_false _ (entry_ne_nil opts p.1 p.2 (hkeys p hp))
  unfold decode
  rw [hparse, except_bind_ok_eq]
  dsimp only
  rw [filter_buildLines _ _ hblank]
  cases o with
  | nil => exact absurd rfl hne
  | cons p0 o2 =>
    obtain ⟨k0, v0⟩ := p0
    rw [List.map_cons, buildLines]
    dsimp only
    rw [determineRootForm_entry opts k0 v0 (hkeys (k0, v0) (by simp))
      (hvals (k0, v0) (by simp)) _ _ rfl]
    dsimp only
    rw [← buildLines, ← List.map_cons]
    have hlen : (buildLines ((k0, v0) :: o2 |>.map (renderEntryLine opts)) 0).length =
        ((k0, v0) :: o2).length := by
      rw [buildLines_length, List.length_map]
    rw [objLoop_flat opts w false _ ((k0, v0) :: o2) _ 0 0 []
      (fun q hq => ⟨hkeys q hq, hvals q hq⟩) (by rw [List.drop_zero]) ?hfuel]
    case hfuel =>
      rw [hlen]
      unfold decodeFuelBound
      omega
    rw [except_bind_ok_eq]
    dsimp only [asObject]
    rw [except_bind_ok_eq]
    rw [foldl_setKey_fresh ((k0, v0) :: o2) [] hnd (by simp)]
    rw [List.nil_append]
    rfl

/-- C1 (corrected): the unrestricted round-trip law fails (see
`C1_counterexample`: the empty object encodes to the empty document,
which decodes to `null`).  The amended law proved here: for flat
non-empty objects — every key a distinct valid identifier key, every
value flat-safe (null, boolean, integer-valued number, or a string
without `[`) — with key folding off, path expansion off, strict off and
any indent width and delimiter, `decode (encode V) = ok (normalize V)`. -/
theorem C1_flat_round_trip (w : Nat) (d : Delim) (o : Obj)
    (hne : o ≠ []) (hnd : (o.map Prod.fst).Nodup)
    (hkeys : ∀ p ∈ o, isValidKey p.1 = true)
    (hvals : ∀ p ∈ o, flatSafeValue p.2 = true) :
    decode ⟨w, false, false⟩ (encode ⟨w, d, false, none⟩ (Json.obj o)) =
      .ok (normalizeValue (Json.obj o)) := by
  rw [encode_flat w d o hvals]
  rw [decode_flat w ⟨w, d, false, none⟩ o hne hnd hkeys hvals]
  rw [normalizeValue_flat o (fun p hp => flatSafeValue_prim p.2 (hvals p hp))]

theorem C1_flat_round_trip_witness :
    decode ⟨2, false, false⟩ (encode ⟨2, Delim.comma, false, none⟩
      (Json.obj [(['a'], Json.num (mkRat 2 1)), (['b'], Json.str ['h', 'i'])])) =
      .ok (normalizeValue
        (Json.obj [(['a'], Json.num (mkRat 2 1)), (['b'], Json.str ['h', 'i'])])) := by
  apply C1_flat_round_trip 2 Delim.comma
  · simp
  · decide
  · decide
  · decide

theorem C1_counterexample :
    encode ⟨2, Delim.comma, false, none⟩ (Json.obj []) = [] ∧
    decode ⟨2, false, false⟩ ([] : Str) = .ok Json.null ∧
    normalizeValue (Json.obj []) = Json.obj [] ∧
    Json.null ≠ Json.obj [] := by
  refine ⟨?_, ?_, ?_, fun h => Json.noConfusion h⟩
  · rw [encode_flat 2 Delim.comma [] (by simp)]
    rfl
  · rfl
  · exact normalizeValue_flat [] (by simp)
